import Mathlib

/-!
Verification of the OTP-harvesting core of vault-otp-ui (src/token.go).

The development shallow-embeds the source:
* the pure parts (GenerateCode, the field-mapping loop of fetchTokenFromKey,
  the tokenList sort order) become Lean functions;
* the concurrent traversal of getSecretsFromVault (a dispatcher goroutine
  selecting over three buffered channels plus a sync.WaitGroup, with one
  goroutine spawned per scan / fetch request) becomes a small-step state
  machine: every atomic action of the Go code (a channel send, a channel
  receive, a wg.Add, a wg.Done, the network round trip of a worker) is one
  step, and the scheduler is an arbitrary interleaving of steps.

Modelling conventions, stated once:
* Go strings are Lean Strings; strings.ToUpper / strings.ToLower are
  character-wise Char.toUpper / Char.toLower (they agree on ASCII, which is
  what base32 secrets and the key material use);
* Go string comparison (<) is the String order (UTF-8 byte order and
  code-point order agree);
* machine integers are Int with explicit wrap-around where the Go code can
  overflow (time.Duration multiplication, uint conversion);
* hierarchical Vault keys are lists of path segments, relative to the
  trimmed cfg.Vault.Prefix; path.Join of a key and a child name (with its
  trailing "/" removed) is list append of the one segment;
* time is an integer count of nanoseconds; time.Now() is a parameter,
  shared by all workers of one invocation;
* the external TOTP engine totp.GenerateCodeCustom is out of scope for the
  repository and is a parameter: a pure function of the secret, the point
  of time, and the options, returning none on error;
* the Vault client is external: the namespace it serves is a parameter
  (an inductive tree whose nodes also record per-key listing / reading
  failures), and the only failure of client construction is a Boolean
  parameter.
-/

set_option maxHeartbeats 1600000

namespace VaultOtp

/-- strings.ToLower, character-wise (ASCII-faithful). -/
def strLower (s : String) : String := String.mk (s.data.map Char.toLower)

/-- strings.ToUpper, character-wise (ASCII-faithful). -/
def strUpper (s : String) : String := String.mk (s.data.map Char.toUpper)

/-- The token struct of src/token.go lines 19-26.  Digits and Period are
Go ints (64-bit), modelled as unbounded Int; every value the program ever
stores in them is in int64 range. -/
structure GoToken where
  Code : String
  Icon : String
  Name : String
  Secret : String
  Digits : Int
  Period : Int
deriving DecidableEq, Repr

/-- totp.ValidateOpts as filled in by GenerateCode (src/token.go lines
35-48).  Algorithm is always AlgorithmSHA1, kept as a constant field so the
call shape is complete. -/
structure ValidateOpts where
  Period : Nat
  Skew : Nat
  Digits : Int
  Algorithm : Nat
deriving DecidableEq, Repr

/-- Secret padding of GenerateCode (src/token.go lines 31-33): append "="
until the length is a multiple of 8; unchanged when it already is. -/
def padSecret (s : String) : String :=
  let n := s.length % 8
  if n ≠ 0 then s ++ String.mk (List.replicate (8 - n) '=') else s

/-- Signed 64-bit wrap-around, for the time.Duration(t.Period)*time.Second
multiplication. -/
def wrap64 (x : Int) : Int := (x + 2 ^ 63) % 2 ^ 64 - 2 ^ 63

/-- Go uint(x) conversion of an int64 value. -/
def uintCast64 (x : Int) : Nat := (x % 2 ^ 64).toNat

def nsPerSec : Int := 1000000000

/-- The full argument tuple GenerateCode hands to totp.GenerateCodeCustom
(src/token.go line 56): the uppercased padded secret, the point of time in
nanoseconds, and the options. -/
structure GenCall where
  secret : String
  atTime : Int
  opts : ValidateOpts
deriving DecidableEq, Repr

/-- The abstract external TOTP engine: none models a non-nil error. -/
abbrev TotpGen := GenCall → Option String

/-- The argument tuple built by GenerateCode (src/token.go lines 28-56):
pad the secret to a multiple of 8 with "=", default Digits to 6 and Period
to 30 when the fields are zero, Skew 1, and shift the point of time by
t.Period seconds when next is set. -/
def genCallOf (now : Int) (t : GoToken) (next : Bool) : GenCall :=
  let secret := padSecret t.Secret
  let digits : Int := if t.Digits ≠ 0 then t.Digits else 6
  let period : Nat := if t.Period ≠ 0 then uintCast64 t.Period else 30
  let pointOfTime : Int := if next then now + wrap64 (t.Period * nsPerSec) else now
  { secret := strUpper secret
    atTime := pointOfTime
    opts := { Period := period, Skew := 1, Digits := digits, Algorithm := 0 } }

/-- GenerateCode (src/token.go lines 28-58): on engine success the Code
field is overwritten with the produced code; on engine error the caller
(fetchTokenFromKey line 250) discards the token, so the error case is
none. -/
def generateCode (gen : TotpGen) (now : Int) (t : GoToken) (next : Bool) :
    Option GoToken :=
  match gen (genCallOf now t next) with
  | none => none
  | some code => some { t with Code := code }

/-- Value of the accumulator after one digit of strconv.Atoi. -/
def digitsVal (cs : List Char) : Nat :=
  cs.foldl (fun a c => a * 10 + (c.toNat - 48)) 0

def int64Max : Int := 2 ^ 63 - 1
def int64Min : Int := -(2 ^ 63)

/-- The value Go's strconv.Atoi stores into its destination even when it
also returns an error: 0 on a syntax error, the clamped bound on a range
error, the parsed value otherwise.  src/token.go lines 238 and 243 assign
this value and only log the error. -/
def atoi (s : String) : Int :=
  let sd := s.data
  let signed : Int × List Char :=
    match sd with
    | '+' :: r => (1, r)
    | '-' :: r => (-1, r)
    | cs => (1, cs)
  if signed.2 = [] ∨ ¬ signed.2.all Char.isDigit then 0
  else
    let v : Int := signed.1 * digitsVal signed.2
    if v > int64Max then int64Max else if v < int64Min then int64Min else v

/-- A leaf payload: the data.Data map of a Vault secret.  The list order
models Go's (arbitrary) map iteration order; all claims proved below are
stated for the order as given.  Values are the strings the code asserts
them to. -/
abbrev Payload := List (String × String)

/-- A Vault key, as the list of path segments below the trimmed
cfg.Vault.Prefix. -/
abbrev Key := List String

/-- The string form of a key, as path.Join produces it. -/
def renderKey (k : Key) : String := String.intercalate "/" k

/-- One iteration of the field-mapping loop of fetchTokenFromKey
(src/token.go lines 225-248).  The switch on the field name is an ordered
first-match (the secret-field case is listed first in the source). -/
def applyField (secretField : String) (t : GoToken) (kv : String × String) :
    GoToken :=
  if kv.1 = secretField then { t with Secret := kv.2 }
  else if kv.1 = "code" then { t with Code := kv.2 }
  else if kv.1 = "name" then { t with Name := kv.2 }
  else if kv.1 = "account_name" then { t with Name := kv.2 }
  else if kv.1 = "icon" then { t with Icon := kv.2 }
  else if kv.1 = "digits" then { t with Digits := atoi kv.2 }
  else if kv.1 = "period" then { t with Period := atoi kv.2 }
  else t

/-- Outcome of client.Logical().Read(k): error, nil data, or a payload. -/
inductive ReadOut where
  | rerr : ReadOut
  | rnil : ReadOut
  | rok : Payload → ReadOut
deriving DecidableEq, Repr

/-- The per-invocation context: the external TOTP engine, the shared
time.Now() instant, cfg.Vault.SecretField, and the caller's next flag. -/
structure Ctx where
  gen : TotpGen
  now : Int
  secretField : String
  next : Bool

/-- The token-producing part of fetchTokenFromKey (src/token.go lines
209-261), as a pure function of the read outcome: the initial token has
Icon "key" and the key as Name (line 220-223); the payload fields are
folded in; GenerateCode then either fails (token dropped), yields an empty
Code (token dropped, line 255), or completes the token. -/
def initTok (k : Key) : GoToken :=
  { Code := "", Icon := "key", Name := renderKey k, Secret := "",
    Digits := 0, Period := 0 }

/-- The tail of fetchTokenFromKey (src/token.go lines 250-261): generate
the code, drop the token on error or empty code, deliver it otherwise. -/
def fetchFinish (cx : Ctx) (t1 : GoToken) : Option GoToken :=
  match generateCode cx.gen cx.now t1 cx.next with
  | none => none
  | some t2 => if t2.Code = "" then none else some t2

def fetchTok (cx : Ctx) (r : ReadOut) (k : Key) : Option GoToken :=
  match r with
  | .rerr => none
  | .rnil => none
  | .rok p => fetchFinish cx (p.foldl (applyField cx.secretField) (initTok k))

example : padSecret "AAAAA" = "AAAAA===" := by decide
example : padSecret "" = "" := by decide

/-! ### Lemmas about the secret normalisation -/

theorem strUpper_append (a b : String) :
    strUpper (a ++ b) = strUpper a ++ strUpper b := by
  apply String.ext
  show ((a ++ b).data.map Char.toUpper)
      = (String.mk (a.data.map Char.toUpper)
          ++ String.mk (b.data.map Char.toUpper)).data
  rw [String.data_append, String.data_append, List.map_append]

theorem strUpper_length (s : String) : (strUpper s).length = s.length := by
  show (s.data.map Char.toUpper).length = s.data.length
  rw [List.length_map]

theorem strLength_append (a b : String) :
    (a ++ b).length = a.length + b.length := by
  show (a ++ b).data.length = a.data.length + b.data.length
  rw [String.data_append, List.length_append]

theorem strUpper_replicate_eq (n : Nat) :
    strUpper (String.mk (List.replicate n '=')) = String.mk (List.replicate n '=') := by
  apply String.ext
  show (List.replicate n '=').map Char.toUpper = List.replicate n '='
  induction n with
  | zero => rfl
  | succ m ih => rw [List.replicate_succ, List.map_cons, ih]; rfl

theorem strUpper_pad_comm (s : String) :
    strUpper (padSecret s) = padSecret (strUpper s) := by
  unfold padSecret
  rw [strUpper_length]
  by_cases h : s.length % 8 = 0
  · simp [h]
  · simp only [h, ne_eq, not_false_iff, if_true]
    rw [strUpper_append, strUpper_replicate_eq]

theorem padSecret_length (s : String) :
    (padSecret s).length = s.length + (8 - s.length % 8) % 8 := by
  unfold padSecret
  by_cases h : s.length % 8 = 0
  · simp [h]
  · have h8 : s.length % 8 < 8 := Nat.mod_lt _ (by norm_num)
    simp only [h, ne_eq, not_false_iff, if_true]
    rw [strLength_append]
    have : (String.mk (List.replicate (8 - s.length % 8) '=')).length
        = 8 - s.length % 8 := by
      show (List.replicate (8 - s.length % 8) '=').length = _
      rw [List.length_replicate]
    rw [this]
    congr 1
    omega

theorem padSecret_mod (s : String) : (padSecret s).length % 8 = 0 := by
  rw [padSecret_length]
  omega

theorem wrap64_small (x : Int) (h1 : -(2 ^ 63) ≤ x) (h2 : x < 2 ^ 63) :
    wrap64 x = x := by
  unfold wrap64
  omega

/-! ### Claim C6: shape of the call into the TOTP engine -/

/-- Claim C6: GenerateCode invokes the external engine with the uppercased
secret padded with "=" to the next multiple of 8 characters (unchanged when
the length is already a multiple of 8, including lengths 0 and 16), digit
count defaulting to 6 when unset, period defaulting to 30 seconds when
unset, and a skew tolerance of one period; the padded secret's length is
always a multiple of 8, so lengths 5, 10 and 16 pad to 8, 16 and 16. -/
theorem genCall_shape (now : Int) (t : GoToken) (next : Bool) :
    (genCallOf now t next).secret = strUpper (padSecret t.Secret)
    ∧ strUpper (padSecret t.Secret) = padSecret (strUpper t.Secret)
    ∧ (padSecret t.Secret).length % 8 = 0
    ∧ (t.Secret.length % 8 = 0 → padSecret t.Secret = t.Secret)
    ∧ (genCallOf now t next).opts.Digits = (if t.Digits ≠ 0 then t.Digits else 6)
    ∧ (genCallOf now t next).opts.Period
        = (if t.Period ≠ 0 then uintCast64 t.Period else 30)
    ∧ (genCallOf now t next).opts.Skew = 1
    ∧ (padSecret t.Secret).length
        = t.Secret.length + (8 - t.Secret.length % 8) % 8 := by
  refine ⟨rfl, strUpper_pad_comm _, padSecret_mod _, ?_, rfl, rfl, rfl,
    padSecret_length _⟩
  intro h
  unfold padSecret
  simp [h]

/-- Closed witness for genCall_shape: at secret length 16 the padding
hypothesis holds and the secret is unchanged; lengths 5 and 10 pad to 8
and 16. -/
def c6tok : GoToken :=
  { Code := "", Icon := "", Name := "", Secret := "AAAABBBBCCCCDDDD",
    Digits := 0, Period := 0 }

theorem genCall_shape_witness :
    padSecret "AAAABBBBCCCCDDDD" = "AAAABBBBCCCCDDDD"
    ∧ (padSecret "AAAAA").length = 8
    ∧ (padSecret "AAAAABBBBB").length = 16 :=
  ⟨(genCall_shape 0 c6tok true).2.2.2.1 (by decide), by decide, by decide⟩

/-! ### Claim C5 (corrected): the point of time under the next flag -/

def c5tok : GoToken :=
  { Code := "", Icon := "", Name := "", Secret := "AB", Digits := 0,
    Period := 0 }

/-- Claim C5, counterexample: for a token whose period field is unset, the
code computes the next code at now (offset t.Period = 0 seconds), not at
now + 30 seconds as the claim's reading of one effective period demands. -/
theorem next_flag_offset_cx :
    (genCallOf 1000 c5tok true).atTime = 1000
    ∧ ¬ (genCallOf 1000 c5tok true).atTime = 1000 + 30 * nsPerSec := by
  constructor
  · decide
  · intro h
    have h1 : (genCallOf 1000 c5tok true).atTime = 1000 := by decide
    rw [h1] at h
    norm_num [nsPerSec] at h

/-- Claim C5 as amended: with the next flag set, GenerateCode computes the
code at now + t.Period seconds, where t.Period is the stored period field
(so a zero offset when the field is unset, even though code generation
itself then uses the default 30-second period); with the flag unset it
computes at now.  In particular a leaf with period 30 and the flag set
yields the code for now + 30 seconds. -/
theorem next_flag_offset (now : Int) (t : GoToken)
    (h1 : 0 ≤ t.Period) (h2 : t.Period ≤ 9223372036) :
    (genCallOf now t false).atTime = now
    ∧ (genCallOf now t true).atTime = now + t.Period * nsPerSec
    ∧ (t.Period = 0 → (genCallOf now t true).atTime = now) := by
  have hw : wrap64 (t.Period * nsPerSec) = t.Period * nsPerSec := by
    apply wrap64_small
    · have : (0 : Int) ≤ t.Period * nsPerSec :=
        mul_nonneg h1 (by norm_num [nsPerSec])
      omega
    · have : t.Period * nsPerSec ≤ 9223372036 * nsPerSec := by
        apply mul_le_mul_of_nonneg_right h2
        norm_num [nsPerSec]
      norm_num [nsPerSec] at this ⊢
      omega
  refine ⟨rfl, ?_, ?_⟩
  · show (if true then now + wrap64 (t.Period * nsPerSec) else now) = _
    rw [if_pos rfl, hw]
  · intro h0
    show (if true then now + wrap64 (t.Period * nsPerSec) else now) = _
    rw [if_pos rfl, h0]
    have hz : wrap64 (0 * nsPerSec) = 0 := by decide
    rw [hz, add_zero]

def c5tok30 : GoToken :=
  { Code := "", Icon := "", Name := "", Secret := "AB", Digits := 0,
    Period := 30 }

/-- Closed witness for next_flag_offset: a leaf with period 30 and the next
flag set is evaluated at now + 30 seconds. -/
theorem next_flag_offset_witness :
    (genCallOf 1000 c5tok30 true).atTime = 1000 + 30 * nsPerSec :=
  (next_flag_offset 1000 c5tok30 (by decide) (by decide)).2.1

/-! ### Claims C8 and C10: what a delivered record's Code can be -/

/-- Equality of all token fields except Code. -/
def eqExceptCode (t t' : GoToken) : Prop :=
  t.Icon = t'.Icon ∧ t.Name = t'.Name ∧ t.Secret = t'.Secret
  ∧ t.Digits = t'.Digits ∧ t.Period = t'.Period

theorem applyField_eqExceptCode (sf : String) (kv : String × String)
    {t t' : GoToken} (h : eqExceptCode t t') :
    eqExceptCode (applyField sf t kv) (applyField sf t' kv) := by
  obtain ⟨h1, h2, h3, h4, h5⟩ := h
  unfold applyField
  split_ifs <;> exact ⟨by simp [h1], by simp [h2], by simp [h3],
    by simp [h4], by simp [h5]⟩

theorem foldl_eqExceptCode (sf : String) (p : Payload)
    {t t' : GoToken} (h : eqExceptCode t t') :
    eqExceptCode (p.foldl (applyField sf) t) (p.foldl (applyField sf) t') := by
  induction p generalizing t t' with
  | nil => exact h
  | cons kv rest ih => exact ih (applyField_eqExceptCode sf kv h)

theorem genCallOf_eqExceptCode (now : Int) (next : Bool)
    {t t' : GoToken} (h : eqExceptCode t t') :
    genCallOf now t next = genCallOf now t' next := by
  obtain ⟨h1, h2, h3, h4, h5⟩ := h
  unfold genCallOf
  rw [h3, h4, h5]

theorem withCode_eq {t t' : GoToken} (h : eqExceptCode t t') (c : String) :
    ({ t with Code := c } : GoToken) = { t' with Code := c } := by
  obtain ⟨h1, h2, h3, h4, h5⟩ := h
  cases t
  cases t'
  simp_all

theorem fetchFinish_eqExceptCode (cx : Ctx) {t t' : GoToken}
    (h : eqExceptCode t t') : fetchFinish cx t = fetchFinish cx t' := by
  unfold fetchFinish generateCode
  rw [genCallOf_eqExceptCode cx.now cx.next h]
  cases cx.gen (genCallOf cx.now t' cx.next) with
  | none => rfl
  | some code => simp [withCode_eq h code]

theorem foldl_secret_unset (sf : String) (p : Payload)
    (hp : ∀ kv ∈ p, kv.1 ≠ sf) {t : GoToken} :
    (p.foldl (applyField sf) t).Secret = t.Secret := by
  induction p generalizing t with
  | nil => rfl
  | cons kv rest ih =>
    have hkv : kv.1 ≠ sf := hp kv (by simp)
    have hrest : ∀ kv' ∈ rest, kv'.1 ≠ sf := fun kv' h' => hp kv' (by simp [h'])
    rw [List.foldl_cons, ih hrest]
    unfold applyField
    split_ifs <;> simp_all

/-- Characterisation of a successful fetchFinish. -/
theorem fetchFinish_eq_some (cx : Ctx) (t1 tok : GoToken) :
    fetchFinish cx t1 = some tok
    ↔ ∃ code, cx.gen (genCallOf cx.now t1 cx.next) = some code ∧ code ≠ ""
        ∧ tok = { t1 with Code := code } := by
  unfold fetchFinish generateCode
  rcases hg : cx.gen (genCallOf cx.now t1 cx.next) with _ | code
  · simp
  · simp only []
    by_cases hc : code = ""
    · subst hc; simp
    · simp [hc]
      constructor
      · intro h; exact h.symm
      · intro h; exact h.symm

/-- Claim C8: a record is included in the output only if code generation
succeeded and produced a non-empty code (first conjunct); and a leaf whose
payload carries data but no recognized secret field (and no code field)
reaches the engine with an empty secret, so whenever the engine fails or
returns an empty code on that call, the leaf yields no record (second
conjunct).  The engine is an external collaborator, so its behaviour on
the empty secret enters as a hypothesis. -/
theorem record_requires_code (cx : Ctx) :
    (∀ r k tok, fetchTok cx r k = some tok →
      tok.Code ≠ ""
      ∧ ∃ p, r = .rok p
        ∧ cx.gen (genCallOf cx.now
            (p.foldl (applyField cx.secretField) (initTok k)) cx.next)
          = some tok.Code)
    ∧ (∀ p k, (∀ kv ∈ p, kv.1 ≠ cx.secretField ∧ kv.1 ≠ "code") →
        ((p.foldl (applyField cx.secretField) (initTok k)).Secret = ""
         ∧ ((cx.gen (genCallOf cx.now
              (p.foldl (applyField cx.secretField) (initTok k)) cx.next) = none
            ∨ cx.gen (genCallOf cx.now
              (p.foldl (applyField cx.secretField) (initTok k)) cx.next)
              = some "") →
            fetchTok cx (.rok p) k = none))) := by
  constructor
  · intro r k tok h
    cases r with
    | rerr => exact absurd h (by simp [fetchTok])
    | rnil => exact absurd h (by simp [fetchTok])
    | rok p =>
      rw [show fetchTok cx (.rok p) k
            = fetchFinish cx (p.foldl (applyField cx.secretField) (initTok k))
          from rfl, fetchFinish_eq_some] at h
      obtain ⟨code, hg, hne, htok⟩ := h
      refine ⟨by simp [htok, hne], p, rfl, by simp [htok, hg]⟩
  · intro p k hp
    constructor
    · rw [foldl_secret_unset cx.secretField p (fun kv h => (hp kv h).1)]
      rfl
    · intro hg
      show fetchFinish cx _ = none
      unfold fetchFinish generateCode
      rcases hg with hg | hg <;> rw [hg] <;> simp

/-- Concrete instances for the record_requires_code witness. -/
def cx8 : Ctx :=
  { gen := fun c => if c.secret = "AB======" then some "111111" else none,
    now := 0, secretField := "secret", next := false }

def tok8 : GoToken :=
  { Code := "111111", Icon := "key", Name := "a", Secret := "ab",
    Digits := 0, Period := 0 }

def cx8n : Ctx :=
  { gen := fun _ => none, now := 0, secretField := "secret", next := false }

/-- Closed witness for record_requires_code: a delivered record has a
non-empty code, and a payload with neither secret nor code field yields no
record when the engine fails on the empty secret. -/
theorem record_requires_code_witness :
    tok8.Code ≠ "" ∧ fetchTok cx8n (.rok [("icon", "x")]) ["a"] = none := by
  constructor
  · exact ((record_requires_code cx8).1 (.rok [("secret", "ab")]) ["a"] tok8
      rfl).1
  · exact ((record_requires_code cx8n).2 [("icon", "x")] ["a"]
      (by decide)).2 (Or.inl rfl)

/-- Claim C10: a stored code field is read into the record (first
conjunct) but GenerateCode unconditionally overwrites it before delivery:
the delivered Code is exactly the engine's freshly generated output (third
conjunct), and the outcome of fetching a leaf is independent of the stored
code value (second conjunct). -/
theorem stored_code_overwritten (cx : Ctx) (hsf : cx.secretField ≠ "code") :
    (∀ t v, applyField cx.secretField t ("code", v) = { t with Code := v })
    ∧ (∀ p k v v', fetchTok cx (.rok (("code", v) :: p)) k
        = fetchTok cx (.rok (("code", v') :: p)) k)
    ∧ (∀ p k tok, fetchTok cx (.rok p) k = some tok →
        cx.gen (genCallOf cx.now
          (p.foldl (applyField cx.secretField) (initTok k)) cx.next)
          = some tok.Code) := by
  have happ : ∀ (t : GoToken) v,
      applyField cx.secretField t ("code", v) = { t with Code := v } := by
    intro t v
    unfold applyField
    rw [if_neg (by simpa using fun h => hsf h.symm), if_pos rfl]
  refine ⟨happ, ?_, ?_⟩
  · intro p k v v'
    show fetchFinish cx _ = fetchFinish cx _
    rw [List.foldl_cons, List.foldl_cons, happ, happ]
    exact fetchFinish_eqExceptCode cx
      (foldl_eqExceptCode _ p ⟨rfl, rfl, rfl, rfl, rfl⟩)
  · intro p k tok h
    rw [show fetchTok cx (.rok p) k
          = fetchFinish cx (p.foldl (applyField cx.secretField) (initTok k))
        from rfl, fetchFinish_eq_some] at h
    obtain ⟨code, hg, hne, htok⟩ := h
    simp [htok, hg]

def cx10 : Ctx :=
  { gen := fun _ => some "999999", now := 0, secretField := "secret",
    next := false }

def tok10 : GoToken :=
  { Code := "999999", Icon := "key", Name := "k", Secret := "",
    Digits := 0, Period := 0 }

/-- Closed witness for stored_code_overwritten: with the engine fixed,
the stored code "A" versus "B" makes no difference, and a delivered
record carries the engine's output. -/
theorem stored_code_overwritten_witness :
    fetchTok cx10 (.rok [("code", "A")]) ["k"]
      = fetchTok cx10 (.rok [("code", "B")]) ["k"]
    ∧ cx10.gen (genCallOf cx10.now
        (([] : Payload).foldl (applyField cx10.secretField) (initTok ["k"]))
        cx10.next) = some tok10.Code :=
  ⟨(stored_code_overwritten cx10 (by decide)).2.1 [] ["k"] "A" "B",
   (stored_code_overwritten cx10 (by decide)).2.2 [] ["k"] tok10 rfl⟩

/-! ### The remote namespace

The Vault store serves a tree: a key either holds leaf data or is a
directory whose List response is an error, a nil key list, or a list of
child names (directory children carry a trailing "/", the convention
scanKeyForSubKeys tests with strings.HasSuffix).  Failures are recorded in
the tree so that one parameter describes every response of the store
during one invocation. -/

mutual
inductive VaultTree : Type where
  | leaf : ReadOut → VaultTree
  | dirErr : VaultTree
  | dirNil : VaultTree
  | dir : Children → VaultTree

inductive Children : Type where
  | nil : Children
  | cons : String → VaultTree → Children → Children
end

def VaultTree.isLeaf : VaultTree → Bool
  | .leaf _ => true
  | _ => false

/-- The name under which the store lists a child: directories carry a
trailing "/". -/
def renderName (n : String) (u : VaultTree) : String :=
  if u.isLeaf then n else n ++ "/"

/-- The List response body for a directory's children. -/
def renderC : Children → List String
  | .nil => []
  | .cons n u rest => renderName n u :: renderC rest

def namesC : Children → List String
  | .nil => []
  | .cons n _ rest => n :: namesC rest

def lookupC (n : String) : Children → Option VaultTree
  | .nil => none
  | .cons m u rest => if m = n then some u else lookupC n rest

/-- Resolve a key below the root. -/
def subAt : VaultTree → Key → Option VaultTree
  | t, [] => some t
  | t, n :: rest =>
    match t with
    | .dir cs =>
      match lookupC n cs with
      | some u => subAt u rest
      | none => none
    | _ => none

/-- Outcome of client.Logical().List(k): a leaf or missing key lists as an
error, matching the err / s == nil handling of scanKeyForSubKeys. -/
inductive ListOut where
  | lerr : ListOut
  | lnil : ListOut
  | lkeys : Children → ListOut

def listAt (t : VaultTree) (k : Key) : ListOut :=
  match subAt t k with
  | some (.dir cs) => .lkeys cs
  | some .dirNil => .lnil
  | some .dirErr => .lerr
  | some (.leaf _) => .lerr
  | none => .lerr

/-- Outcome of client.Logical().Read(k): reading a directory key yields
nil data; a missing key is an error.  Either way the fetch worker drops
it. -/
def readAt (t : VaultTree) (k : Key) : ReadOut :=
  match subAt t k with
  | some (.leaf r) => r
  | some _ => .rnil
  | none => .rerr

/-- strings.HasSuffix(s, "/") on the listed child name. -/
def hasSlashSuffix (s : String) : Bool := s.data.getLast? = some '/'

/-- The segment path.Join appends for a listed child name: the name with
its trailing "/" cleaned away. -/
def joinSeg (s : String) : String :=
  if hasSlashSuffix s then String.mk s.data.dropLast else s

/-- A name the store may use for a child: non-empty and without "/",
so that path.Join produces exactly one new path segment. -/
def goodName (n : String) : Bool := (n ≠ "") && !(n.data.contains '/')

mutual
/-- Well-formedness of the served namespace: every directory's child
names are distinct and segment-clean.  This is the tree-structure
assumption of the remote store that the spec invokes. -/
def WFb : VaultTree → Bool
  | .dir cs => decide (namesC cs).Nodup && WFc cs
  | _ => true

def WFc : Children → Bool
  | .nil => true
  | .cons n u rest => goodName n && WFb u && WFc rest
end

/-! ### Discovered keys and tokens of a namespace -/

mutual
/-- Directory keys discovered strictly below a node whose scan succeeds:
children of a listable directory, recursively. -/
def scanYieldL : VaultTree → Key → List Key
  | .dir cs, k => scanYieldLC cs k
  | _, _ => []

def scanYieldLC : Children → Key → List Key
  | .nil, _ => []
  | .cons n u rest, k =>
    (if u.isLeaf then [] else (k ++ [n]) :: scanYieldL u (k ++ [n]))
      ++ scanYieldLC rest k
end

mutual
/-- Leaf keys discovered below a node. -/
def leafYieldL : VaultTree → Key → List Key
  | .dir cs, k => leafYieldLC cs k
  | _, _ => []

def leafYieldLC : Children → Key → List Key
  | .nil, _ => []
  | .cons n u rest, k =>
    (if u.isLeaf then [k ++ [n]] else leafYieldL u (k ++ [n]))
      ++ leafYieldLC rest k
end

mutual
/-- Tokens the discovered leaves deliver. -/
def tokYieldL (cx : Ctx) : VaultTree → Key → List GoToken
  | .dir cs, k => tokYieldLC cx cs k
  | _, _ => []

def tokYieldLC (cx : Ctx) : Children → Key → List GoToken
  | .nil, _ => []
  | .cons n u rest, k =>
    (match u with
     | .leaf r => (fetchTok cx r (k ++ [n])).toList
     | _ => tokYieldL cx u (k ++ [n]))
      ++ tokYieldLC cx rest k
end

/-! ### The traversal state machine

One state of getSecretsFromVault (src/token.go lines 138-169) between two
atomic actions.  A scan worker is in one of three phases: before its List
round trip; iterating over the listed names with some names still to emit;
or having just done wg.Add(1) for the head name but not yet sent it (the
window between lines 196/199 and 197/200).  A fetch worker is before its
Read; holding a token with wg.Add(1) not yet done (between lines 248 and
260); with the Add done but the send pending (between 260 and 261); or
past its send with the deferred wg.Done() still pending.  Workers that
exit without a token do their deferred wg.Done() in the same atomic step
as the decision, since no other action of theirs separates the two.

The ghost fields adds, dones, spawnedScans and spawnedFetches record the
events (wg.Add calls, wg.Done calls, goroutine spawns) and change nothing
else; wg is the WaitGroup counter itself, kept as an Int so that being
non-negative is a theorem rather than a typing assumption.

The three channels are kept as unbounded queues: the source gives them
capacity 100 and the spec leaves behaviour beyond 100 in-flight items
explicitly unspecified, so the model is the unbounded reading. -/

inductive ScanW where
  | listing : Key → ScanW
  | emitting : Key → List String → ScanW
  | emitAdded : Key → String → List String → ScanW
deriving DecidableEq, Repr

inductive FetchW where
  | reading : Key → FetchW
  | delivering : GoToken → FetchW
  | deliverAdded : GoToken → FetchW
  | fexitW : FetchW
deriving DecidableEq, Repr

structure PState where
  scanPool : List Key
  keyPool : List Key
  respChan : List GoToken
  resp : List GoToken
  wg : Int
  adds : Nat
  dones : Nat
  scanners : List ScanW
  fetchers : List FetchW
  spawnedScans : List Key
  spawnedFetches : List Key
deriving DecidableEq, Repr

/-- State after lines 138-150: wg.Add(1) done, the root key in the scan
pool, the dispatcher loop about to run. -/
def initState : PState :=
  { scanPool := [[]], keyPool := [], respChan := [], resp := [], wg := 1,
    adds := 1, dones := 0, scanners := [], fetchers := [],
    spawnedScans := [], spawnedFetches := [] }

/-- A scheduling decision: one of the three dispatcher select arms, or
advancing the i-th running scan or fetch worker by one atomic action. -/
inductive Choice where
  | dispScan : Choice
  | dispFetch : Choice
  | dispResp : Choice
  | wScan : Nat → Choice
  | wFetch : Nat → Choice
deriving DecidableEq, Repr

/-- One atomic action of the i-th scan worker (scanKeyForSubKeys,
src/token.go lines 178-204). -/
def scanStep (t : VaultTree) (s : PState) (i : Nat) (w : ScanW) : PState :=
  match w with
  | .listing k =>
    match listAt t k with
    | .lkeys cs =>
      { s with scanners := s.scanners.set i (.emitting k (renderC cs)) }
    | _ =>
      { s with
        scanners := s.scanners.eraseIdx i
        wg := s.wg - 1
        dones := s.dones + 1 }
  | .emitting k [] =>
    { s with
      scanners := s.scanners.eraseIdx i
      wg := s.wg - 1
      dones := s.dones + 1 }
  | .emitting k (x :: r) =>
    { s with
      scanners := s.scanners.set i (.emitAdded k x r)
      wg := s.wg + 1
      adds := s.adds + 1 }
  | .emitAdded k x r =>
    if hasSlashSuffix x then
      { s with
        scanners := s.scanners.set i (.emitting k r)
        scanPool := s.scanPool ++ [k ++ [joinSeg x]] }
    else
      { s with
        scanners := s.scanners.set i (.emitting k r)
        keyPool := s.keyPool ++ [k ++ [joinSeg x]] }

/-- One atomic action of the i-th fetch worker (fetchTokenFromKey,
src/token.go lines 206-262). -/
def fetchStep (cx : Ctx) (t : VaultTree) (s : PState) (i : Nat) (w : FetchW) :
    PState :=
  match w with
  | .reading k =>
    match fetchTok cx (readAt t k) k with
    | none =>
      { s with
        fetchers := s.fetchers.eraseIdx i
        wg := s.wg - 1
        dones := s.dones + 1 }
    | some tok => { s with fetchers := s.fetchers.set i (.delivering tok) }
  | .delivering tok =>
    { s with
      fetchers := s.fetchers.set i (.deliverAdded tok)
      wg := s.wg + 1
      adds := s.adds + 1 }
  | .deliverAdded tok =>
    { s with
      fetchers := s.fetchers.set i .fexitW
      respChan := s.respChan ++ [tok] }
  | .fexitW =>
    { s with
      fetchers := s.fetchers.eraseIdx i
      wg := s.wg - 1
      dones := s.dones + 1 }

/-- One atomic action of the whole system under a scheduling decision:
none when that decision is not enabled.  The dispatcher arms mirror the
select of src/token.go lines 152-169: receiving a key spawns a worker
goroutine, receiving a token appends it to resp and calls wg.Done(). -/
def doChoice (cx : Ctx) (t : VaultTree) (ch : Choice) (s : PState) :
    Option PState :=
  match ch with
  | .dispScan =>
    match s.scanPool with
    | [] => none
    | k :: rest =>
      some { s with
             scanPool := rest
             scanners := s.scanners ++ [.listing k]
             spawnedScans := s.spawnedScans ++ [k] }
  | .dispFetch =>
    match s.keyPool with
    | [] => none
    | k :: rest =>
      some { s with
             keyPool := rest
             fetchers := s.fetchers ++ [.reading k]
             spawnedFetches := s.spawnedFetches ++ [k] }
  | .dispResp =>
    match s.respChan with
    | [] => none
    | tok :: rest =>
      some { s with
             respChan := rest
             resp := s.resp ++ [tok]
             wg := s.wg - 1
             dones := s.dones + 1 }
  | .wScan i =>
    match s.scanners[i]? with
    | none => none
    | some w => some (scanStep t s i w)
  | .wFetch i =>
    match s.fetchers[i]? with
    | none => none
    | some w => some (fetchStep cx t s i w)

/-- The step relation: some scheduling decision is taken. -/
def Step (cx : Ctx) (t : VaultTree) (s s' : PState) : Prop :=
  ∃ ch, doChoice cx t ch s = some s'

/-- Reachability from the freshly initialised invocation. -/
def Reach (cx : Ctx) (t : VaultTree) (s : PState) : Prop :=
  Relation.ReflTransGen (Step cx t) initState s

/-- Executing a whole schedule, for constructing concrete runs. -/
def applySched (cx : Ctx) (t : VaultTree) : List Choice → PState → Option PState
  | [], s => some s
  | ch :: rest, s =>
    match doChoice cx t ch s with
    | none => none
    | some s' => applySched cx t rest s'

theorem applySched_sound (cx : Ctx) (t : VaultTree) (sched : List Choice)
    (s s' : PState) (h : applySched cx t sched s = some s') :
    Relation.ReflTransGen (Step cx t) s s' := by
  induction sched generalizing s with
  | nil =>
    unfold applySched at h
    cases h
    exact Relation.ReflTransGen.refl
  | cons ch rest ih =>
    unfold applySched at h
    revert h
    cases hd : doChoice cx t ch s with
    | none => intro h; cases h
    | some s1 =>
      intro h
      exact Relation.ReflTransGen.head ⟨ch, hd⟩ (ih s1 h)

/-! ### Generic sum bookkeeping over worker lists -/

theorem map_sum_set {α M : Type} [AddCommMonoid M] (f : α → M) (l : List α)
    (i : Nat) (a w : α) (h : l[i]? = some a) :
    ((l.set i w).map f).sum + f a = (l.map f).sum + f w := by
  induction l generalizing i with
  | nil => simp at h
  | cons b rest ih =>
    cases i with
    | zero =>
      simp only [List.getElem?_cons_zero, Option.some.injEq] at h
      subst h
      simp only [List.set_cons_zero, List.map_cons, List.sum_cons]
      abel
    | succ j =>
      simp only [List.getElem?_cons_succ] at h
      simp only [List.set_cons_succ, List.map_cons, List.sum_cons]
      rw [add_assoc, ih j h, ← add_assoc]

theorem map_sum_eraseIdx {α M : Type} [AddCommMonoid M] (f : α → M)
    (l : List α) (i : Nat) (a : α) (h : l[i]? = some a) :
    ((l.eraseIdx i).map f).sum + f a = (l.map f).sum := by
  induction l generalizing i with
  | nil => simp at h
  | cons b rest ih =>
    cases i with
    | zero =>
      simp only [List.getElem?_cons_zero, Option.some.injEq] at h
      subst h
      simp [List.eraseIdx, add_comm]
    | succ j =>
      simp only [List.getElem?_cons_succ] at h
      simp only [List.eraseIdx, List.map_cons, List.sum_cons]
      rw [add_assoc, ih j h]

theorem length_set_eq {α : Type} (l : List α) (i : Nat) (w : α) :
    (l.set i w).length = l.length := by simp

theorem length_eraseIdx_add_one {α : Type} {l : List α} {i : Nat} {a : α}
    (h : l[i]? = some a) : (l.eraseIdx i).length + 1 = l.length := by
  have hi : i < l.length := by
    by_contra hc
    rw [List.getElem?_eq_none (by omega)] at h
    cases h
  rw [List.length_eraseIdx_of_lt hi]
  omega

/-! ### Counter weights and conserved multisets -/

/-- wg.Add calls a scan worker has made that are not yet matched by a
visible channel item. -/
def scanWFlag : ScanW → Nat
  | .emitAdded _ _ _ => 1
  | _ => 0

/-- wg.Add calls a fetch worker has made that are not yet matched by a
visible channel item. -/
def fetchWFlag : FetchW → Nat
  | .deliverAdded _ => 1
  | _ => 0

/-- Counter units held by a running scan worker: one for the worker
itself plus any unflushed Add. -/
def scanWUnits (w : ScanW) : Nat := 1 + scanWFlag w

/-- Counter units held by a running fetch worker. -/
def fetchWUnits (w : FetchW) : Nat := 1 + fetchWFlag w

/-- Everything the WaitGroup counter accounts for: queued work items,
undelivered records, and running workers with their unflushed Adds. -/
def units (s : PState) : Nat :=
  s.scanPool.length + s.keyPool.length + s.respChan.length
  + (s.scanners.map scanWUnits).sum + (s.fetchers.map fetchWUnits).sum

def optScanYield (t : VaultTree) (k : Key) : Multiset Key :=
  match subAt t k with
  | some u => (scanYieldL u k : Multiset Key)
  | none => 0

def optLeafYield (t : VaultTree) (k : Key) : Multiset Key :=
  match subAt t k with
  | some u => (leafYieldL u k : Multiset Key)
  | none => 0

def optTokYield (cx : Ctx) (t : VaultTree) (k : Key) : Multiset GoToken :=
  match subAt t k with
  | some u => (tokYieldL cx u k : Multiset GoToken)
  | none => 0

/-- Token the fetch of key k would deliver, if any. -/
def tokAt (cx : Ctx) (t : VaultTree) (k : Key) : Multiset GoToken :=
  ((fetchTok cx (readAt t k) k).toList : Multiset GoToken)

/-- Scan workers a queued scan request for k will eventually cause:
itself plus the directories discovered below it. -/
def poolS (t : VaultTree) (k : Key) : Multiset Key := {k} + optScanYield t k

/-- Scan workers one pending (not yet sent) child name will cause. -/
def pendScan (t : VaultTree) (k : Key) (x : String) : Multiset Key :=
  if hasSlashSuffix x then poolS t (k ++ [joinSeg x]) else 0

def emitScanM (t : VaultTree) (k : Key) (p : List String) : Multiset Key :=
  (p.map (pendScan t k)).sum

/-- Fetch workers one pending child name will cause. -/
def pendFetch (t : VaultTree) (k : Key) (x : String) : Multiset Key :=
  if hasSlashSuffix x then optLeafYield t (k ++ [joinSeg x])
  else {k ++ [joinSeg x]}

def emitFetchM (t : VaultTree) (k : Key) (p : List String) : Multiset Key :=
  (p.map (pendFetch t k)).sum

/-- Tokens one pending child name will cause. -/
def pendTok (cx : Ctx) (t : VaultTree) (k : Key) (x : String) :
    Multiset GoToken :=
  if hasSlashSuffix x then optTokYield cx t (k ++ [joinSeg x])
  else tokAt cx t (k ++ [joinSeg x])

def emitTokM (cx : Ctx) (t : VaultTree) (k : Key) (p : List String) :
    Multiset GoToken :=
  (p.map (pendTok cx t k)).sum

/-- Future scan-worker keys a running scan worker still causes. -/
def scanContrib (t : VaultTree) : ScanW → Multiset Key
  | .listing k => optScanYield t k
  | .emitting k p => emitScanM t k p
  | .emitAdded k x r => emitScanM t k (x :: r)

/-- Future fetch-worker keys a running scan worker still causes. -/
def fetchContrib (t : VaultTree) : ScanW → Multiset Key
  | .listing k => optLeafYield t k
  | .emitting k p => emitFetchM t k p
  | .emitAdded k x r => emitFetchM t k (x :: r)

/-- Future delivered tokens a running scan worker still causes. -/
def tokContribS (cx : Ctx) (t : VaultTree) : ScanW → Multiset GoToken
  | .listing k => optTokYield cx t k
  | .emitting k p => emitTokM cx t k p
  | .emitAdded k x r => emitTokM cx t k (x :: r)

/-- Tokens a running fetch worker still causes. -/
def tokContribF (cx : Ctx) (t : VaultTree) : FetchW → Multiset GoToken
  | .reading k => tokAt cx t k
  | .delivering tok => {tok}
  | .deliverAdded tok => {tok}
  | .fexitW => 0

/-- The inductive invariant of the traversal: the event ledger balances
the counter, and three conservation laws say that scanned keys, fetched
keys and delivered tokens are neither lost nor duplicated on the way from
discovery to the aggregator. -/
structure Inv (cx : Ctx) (t : VaultTree) (s : PState) : Prop where
  wgAdds : s.wg = (s.adds : Int) - (s.dones : Int)
  addsEq : s.adds = s.spawnedScans.length + s.spawnedFetches.length
    + s.scanPool.length + s.keyPool.length + s.resp.length
    + s.respChan.length + (s.scanners.map scanWFlag).sum
    + (s.fetchers.map fetchWFlag).sum
  donesEq : s.dones + s.scanners.length + s.fetchers.length
    = s.spawnedScans.length + s.spawnedFetches.length + s.resp.length
  scanMS : (s.spawnedScans : Multiset Key) + (s.scanPool.map (poolS t)).sum
    + (s.scanners.map (scanContrib t)).sum = poolS t []
  fetchMS : (s.spawnedFetches : Multiset Key) + (s.keyPool : Multiset Key)
    + (s.scanPool.map (optLeafYield t)).sum
    + (s.scanners.map (fetchContrib t)).sum = optLeafYield t []
  tokMS : (s.resp : Multiset GoToken) + (s.respChan : Multiset GoToken)
    + (s.fetchers.map (tokContribF cx t)).sum
    + (s.keyPool.map (tokAt cx t)).sum
    + (s.scanPool.map (optTokYield cx t)).sum
    + (s.scanners.map (tokContribS cx t)).sum = optTokYield cx t []

theorem inv_init (cx : Ctx) (t : VaultTree) : Inv cx t initState := by
  constructor <;> simp [initState, units, poolS, optScanYield, optLeafYield,
    optTokYield, subAt]

/-! ### Child names and key resolution -/

theorem goodName_not_slash {n : String} (h : goodName n = true) :
    hasSlashSuffix n = false := by
  unfold goodName at h
  rw [Bool.and_eq_true] at h
  unfold hasSlashSuffix
  by_contra hc
  rw [Bool.not_eq_false, decide_eq_true_iff] at hc
  have hm : '/' ∈ n.data := List.mem_of_mem_getLast? hc
  have h2 := h.2
  rw [Bool.not_eq_true'] at h2
  rw [List.contains_eq_any_beq] at h2
  simp [List.any_eq_true] at h2
  exact h2 '/' hm rfl

theorem goodName_joinSeg {n : String} (h : goodName n = true) :
    joinSeg n = n := by
  unfold joinSeg
  rw [goodName_not_slash h]
  simp

theorem hasSlashSuffix_slash (n : String) :
    hasSlashSuffix (n ++ "/") = true := by
  unfold hasSlashSuffix
  rw [String.data_append]
  show decide ((n.data ++ ['/']).getLast? = some '/') = true
  rw [List.getLast?_concat]
  simp

theorem joinSeg_slash (n : String) : joinSeg (n ++ "/") = n := by
  unfold joinSeg
  rw [hasSlashSuffix_slash]
  simp only [if_true]
  rw [String.data_append]
  show String.mk (n.data ++ ['/']).dropLast = n
  rw [List.dropLast_concat]

/-- Structural induction for children lists (the mutual recursor is not
directly usable by the induction tactic). -/
theorem childrenInd {motive : Children → Prop} (hn : motive .nil)
    (hc : ∀ n u rest, motive rest → motive (.cons n u rest)) :
    ∀ cs : Children, motive cs
  | .nil => hn
  | .cons n u rest => hc n u rest (childrenInd hn hc rest)

/-- Membership of a named child in a children list. -/
def memC (n : String) (u : VaultTree) : Children → Prop
  | .nil => False
  | .cons m v rest => (m = n ∧ v = u) ∨ memC n u rest

theorem memC_mem_names {n : String} {u : VaultTree} {cs : Children}
    (h : memC n u cs) : n ∈ namesC cs := by
  induction cs using childrenInd with
  | hn => exact absurd h id
  | hc m v rest ih =>
    rcases h with ⟨rfl, _⟩ | h
    · simp [namesC]
    · simp [namesC, ih h]

theorem lookupC_memC {n : String} {u : VaultTree} {cs : Children}
    (h : lookupC n cs = some u) : memC n u cs := by
  induction cs using childrenInd with
  | hn => exact absurd h (by simp [lookupC])
  | hc m v rest ih =>
    unfold lookupC at h
    by_cases hm : m = n
    · rw [if_pos hm] at h
      exact Or.inl ⟨hm, by injection h⟩
    · rw [if_neg hm] at h
      exact Or.inr (ih h)

theorem lookupC_of_memC {n : String} {u : VaultTree} {cs : Children}
    (hnd : (namesC cs).Nodup) (h : memC n u cs) : lookupC n cs = some u := by
  induction cs using childrenInd with
  | hn => exact absurd h id
  | hc m v rest ih =>
    unfold namesC at hnd
    rw [List.nodup_cons] at hnd
    rcases h with ⟨rfl, rfl⟩ | h
    · unfold lookupC
      rw [if_pos rfl]
    · unfold lookupC
      have hm : m ≠ n := fun he => hnd.1 (he ▸ memC_mem_names h)
      rw [if_neg hm]
      exact ih hnd.2 h

theorem WF_dir_parts {cs : Children} (h : WFb (.dir cs) = true) :
    (namesC cs).Nodup ∧ WFc cs = true := by
  unfold WFb at h
  rw [Bool.and_eq_true, decide_eq_true_iff] at h
  exact h

theorem WFc_child {n : String} {u : VaultTree} {cs : Children}
    (h : WFc cs = true) (hm : memC n u cs) :
    goodName n = true ∧ WFb u = true := by
  induction cs using childrenInd with
  | hn => exact absurd hm id
  | hc m v rest ih =>
    unfold WFc at h
    rw [Bool.and_eq_true, Bool.and_eq_true] at h
    rcases hm with ⟨rfl, rfl⟩ | hm
    · exact ⟨h.1.1, h.1.2⟩
    · exact ih h.2 hm

theorem subAt_cons_dir (n : String) (rest : Key) (cs : Children) :
    subAt (.dir cs) (n :: rest)
      = match lookupC n cs with
        | some u => subAt u rest
        | none => none := rfl

theorem WF_subAt {t : VaultTree} {k : Key} {u : VaultTree}
    (hw : WFb t = true) (h : subAt t k = some u) : WFb u = true := by
  induction k generalizing t with
  | nil =>
    unfold subAt at h
    injection h with h
    exact h ▸ hw
  | cons n rest ih =>
    cases t with
    | leaf r => exact absurd h (by intro hc; cases hc)
    | dirErr => exact absurd h (by intro hc; cases hc)
    | dirNil => exact absurd h (by intro hc; cases hc)
    | dir cs =>
      rw [subAt_cons_dir] at h
      rcases hl : lookupC n cs with _ | v
      · rw [hl] at h
        cases h
      · rw [hl] at h
        have hv : WFb v = true :=
          (WFc_child (WF_dir_parts hw).2 (lookupC_memC hl)).2
        exact ih hv h

theorem subAt_append (k1 k2 : Key) (t : VaultTree) :
    subAt t (k1 ++ k2) = (subAt t k1).bind (fun u => subAt u k2) := by
  induction k1 generalizing t with
  | nil => simp [subAt]
  | cons n rest ih =>
    cases t with
    | leaf r => rfl
    | dirErr => rfl
    | dirNil => rfl
    | dir cs =>
      show subAt (.dir cs) (n :: (rest ++ k2)) = _
      rw [subAt_cons_dir, subAt_cons_dir]
      cases lookupC n cs with
      | none => rfl
      | some u => exact ih u

theorem child_resolve {t : VaultTree} {k : Key} {cs : Children}
    (hw : WFb t = true) (hk : subAt t k = some (.dir cs)) :
    ∀ n u, memC n u cs →
      subAt t (k ++ [n]) = some u ∧ goodName n = true := by
  intro n u hm
  have hwd : WFb (VaultTree.dir cs) = true := WF_subAt hw hk
  obtain ⟨hnd, hwc⟩ := WF_dir_parts hwd
  constructor
  · rw [subAt_append, hk]
    show subAt (.dir cs) [n] = some u
    rw [subAt_cons_dir, lookupC_of_memC hnd hm]
    rfl
  · exact (WFc_child hwc hm).1

/-! ### The listed children account exactly for the yields below a node -/

theorem children_correspond (cx : Ctx) (t : VaultTree) (k : Key)
    (cs : Children)
    (h : ∀ n u, memC n u cs →
      subAt t (k ++ [n]) = some u ∧ goodName n = true) :
    ((scanYieldLC cs k : Multiset Key) = emitScanM t k (renderC cs))
    ∧ ((leafYieldLC cs k : Multiset Key) = emitFetchM t k (renderC cs))
    ∧ ((tokYieldLC cx cs k : Multiset GoToken)
        = emitTokM cx t k (renderC cs)) := by
  induction cs using childrenInd with
  | hn =>
    refine ⟨?_, ?_, ?_⟩ <;>
      simp [scanYieldLC, leafYieldLC, tokYieldLC, renderC, emitScanM,
        emitFetchM, emitTokM]
  | hc n u rest ih =>
    have hh := h n u (Or.inl ⟨rfl, rfl⟩)
    obtain ⟨ih1, ih2, ih3⟩ :=
      ih (fun n' u' hm => h n' u' (Or.inr hm))
    obtain ⟨hs, hg⟩ := hh
    cases u with
    | leaf r =>
      have hns : hasSlashSuffix n = false := goodName_not_slash hg
      have hj : joinSeg n = n := goodName_joinSeg hg
      refine ⟨?_, ?_, ?_⟩
      · simp only [scanYieldLC, renderC, renderName, VaultTree.isLeaf,
          if_true, emitScanM, List.map_cons, List.sum_cons, pendScan, hns,
          Bool.false_eq_true, if_false]
        rw [← emitScanM, ← ih1]
        simp
      · simp only [leafYieldLC, renderC, renderName, VaultTree.isLeaf,
          if_true, emitFetchM, List.map_cons, List.sum_cons, pendFetch, hns,
          Bool.false_eq_true, if_false, hj]
        rw [← emitFetchM, ← ih2]
        rw [show ([k ++ [n]] ++ leafYieldLC rest k : Multiset Key)
          = {k ++ [n]} + (leafYieldLC rest k : Multiset Key) from rfl]
      · simp only [tokYieldLC, renderC, renderName, VaultTree.isLeaf,
          if_true, emitTokM, List.map_cons, List.sum_cons, pendTok, hns,
          Bool.false_eq_true, if_false, hj, tokAt, readAt, hs]
        rw [← emitTokM, ← ih3]
        rfl
    | dirErr =>
      have hsl : hasSlashSuffix (renderName n .dirErr) = true := by
        simp only [renderName, VaultTree.isLeaf, Bool.false_eq_true,
          if_false]
        exact hasSlashSuffix_slash n
      have hjs : joinSeg (renderName n .dirErr) = n := by
        simp only [renderName, VaultTree.isLeaf, Bool.false_eq_true,
          if_false]
        exact joinSeg_slash n
      refine ⟨?_, ?_, ?_⟩
      · simp only [scanYieldLC, VaultTree.isLeaf, Bool.false_eq_true,
          if_false, renderC, emitScanM, List.map_cons, List.sum_cons,
          pendScan, hsl, if_true, hjs, poolS, optScanYield, hs]
        rw [← emitScanM, ← ih1]
        simp [scanYieldL, Multiset.singleton_add]
      · simp only [leafYieldLC, VaultTree.isLeaf, Bool.false_eq_true,
          if_false, renderC, emitFetchM, List.map_cons, List.sum_cons,
          pendFetch, hsl, if_true, hjs, optLeafYield, hs]
        rw [← emitFetchM, ← ih2]
        simp [leafYieldL]
      · simp only [tokYieldLC, renderC, emitTokM, List.map_cons,
          List.sum_cons, pendTok, hsl, if_true, hjs, optTokYield, hs]
        rw [← emitTokM, ← ih3]
        simp [tokYieldL]
    | dirNil =>
      have hsl : hasSlashSuffix (renderName n .dirNil) = true := by
        simp only [renderName, VaultTree.isLeaf, Bool.false_eq_true,
          if_false]
        exact hasSlashSuffix_slash n
      have hjs : joinSeg (renderName n .dirNil) = n := by
        simp only [renderName, VaultTree.isLeaf, Bool.false_eq_true,
          if_false]
        exact joinSeg_slash n
      refine ⟨?_, ?_, ?_⟩
      · simp only [scanYieldLC, VaultTree.isLeaf, Bool.false_eq_true,
          if_false, renderC, emitScanM, List.map_cons, List.sum_cons,
          pendScan, hsl, if_true, hjs, poolS, optScanYield, hs]
        rw [← emitScanM, ← ih1]
        simp [scanYieldL, Multiset.singleton_add]
      · simp only [leafYieldLC, VaultTree.isLeaf, Bool.false_eq_true,
          if_false, renderC, emitFetchM, List.map_cons, List.sum_cons,
          pendFetch, hsl, if_true, hjs, optLeafYield, hs]
        rw [← emitFetchM, ← ih2]
        simp [leafYieldL]
      · simp only [tokYieldLC, renderC, emitTokM, List.map_cons,
          List.sum_cons, pendTok, hsl, if_true, hjs, optTokYield, hs]
        rw [← emitTokM, ← ih3]
        simp [tokYieldL]
    | dir cs2 =>
      have hsl : hasSlashSuffix (renderName n (.dir cs2)) = true := by
        simp only [renderName, VaultTree.isLeaf, Bool.false_eq_true,
          if_false]
        exact hasSlashSuffix_slash n
      have hjs : joinSeg (renderName n (.dir cs2)) = n := by
        simp only [renderName, VaultTree.isLeaf, Bool.false_eq_true,
          if_false]
        exact joinSeg_slash n
      refine ⟨?_, ?_, ?_⟩
      · simp only [scanYieldLC, VaultTree.isLeaf, Bool.false_eq_true,
          if_false, renderC, emitScanM, List.map_cons, List.sum_cons,
          pendScan, hsl, if_true, hjs, poolS, optScanYield, hs]
        rw [← emitScanM, ← ih1]
        simp [scanYieldL, Multiset.singleton_add]
      · simp only [leafYieldLC, VaultTree.isLeaf, Bool.false_eq_true,
          if_false, renderC, emitFetchM, List.map_cons, List.sum_cons,
          pendFetch, hsl, if_true, hjs, optLeafYield, hs]
        rw [← emitFetchM, ← ih2]
        simp [leafYieldL]
      · simp only [tokYieldLC, renderC, emitTokM, List.map_cons,
          List.sum_cons, pendTok, hsl, if_true, hjs, optTokYield, hs]
        rw [← emitTokM, ← ih3]
        simp [tokYieldL]

/-! ### Preservation of the invariant -/

theorem coe_append_ms {α : Type} (a b : List α) :
    ((a ++ b : List α) : Multiset α) = (a : Multiset α) + (b : Multiset α) :=
  rfl

theorem coe_cons_ms {α : Type} (a : α) (b : List α) :
    ((a :: b : List α) : Multiset α) = {a} + (b : Multiset α) := by
  rw [← Multiset.cons_coe, ← Multiset.singleton_add]

theorem coe_nil_ms {α : Type} : (([] : List α) : Multiset α) = 0 := rfl

theorem map_sum_set_congr {α M : Type} [AddCancelCommMonoid M] (f : α → M)
    (l : List α) (i : Nat) (a w : α) (h : l[i]? = some a)
    (hf : f a = f w) : ((l.set i w).map f).sum = (l.map f).sum := by
  have h2 := map_sum_set f l i a w h
  rw [hf] at h2
  exact add_right_cancel h2

theorem inv_dispScan (cx : Ctx) (t : VaultTree) {s : PState}
    (hi : Inv cx t s) (k : Key) (rest : List Key)
    (hp : s.scanPool = k :: rest) :
    Inv cx t { s with
               scanPool := rest
               scanners := s.scanners ++ [.listing k]
               spawnedScans := s.spawnedScans ++ [k] } := by
  obtain ⟨h1, h2, h3, h4, h5, h6⟩ := hi
  rw [hp] at h2 h4 h5 h6
  constructor
  · exact h1
  · simp only [List.length_append, List.length_cons, List.length_nil,
      List.map_append, List.map_cons, List.map_nil, List.sum_append,
      List.sum_cons, List.sum_nil, scanWFlag] at h2 ⊢
    omega
  · simp only [List.length_append, List.length_cons, List.length_nil]
      at h3 ⊢
    omega
  · rw [← h4]
    simp only [List.map_append, List.map_cons, List.sum_append,
      List.sum_cons, List.map_nil, List.sum_nil, coe_append_ms, poolS,
      scanContrib]
    rw [show (([k] : List Key) : Multiset Key) = {k} from rfl]
    abel
  · rw [← h5]
    simp only [List.map_append, List.map_cons, List.sum_append,
      List.sum_cons, List.map_nil, List.sum_nil, fetchContrib]
    abel
  · rw [← h6]
    simp only [List.map_append, List.map_cons, List.sum_append,
      List.sum_cons, List.map_nil, List.sum_nil, tokContribS]
    abel

theorem inv_dispFetch (cx : Ctx) (t : VaultTree) {s : PState}
    (hi : Inv cx t s) (k : Key) (rest : List Key)
    (hp : s.keyPool = k :: rest) :
    Inv cx t { s with
               keyPool := rest
               fetchers := s.fetchers ++ [.reading k]
               spawnedFetches := s.spawnedFetches ++ [k] } := by
  obtain ⟨h1, h2, h3, h4, h5, h6⟩ := hi
  rw [hp] at h2 h5 h6
  constructor
  · exact h1
  · simp only [List.length_append, List.length_cons, List.length_nil,
      List.map_append, List.map_cons, List.map_nil, List.sum_append,
      List.sum_cons, List.sum_nil, fetchWFlag] at h2 ⊢
    omega
  · simp only [List.length_append, List.length_cons, List.length_nil]
      at h3 ⊢
    omega
  · exact h4
  · rw [← h5]
    simp only [coe_append_ms, coe_cons_ms, coe_nil_ms]
    abel
  · rw [← h6]
    simp only [List.map_append, List.map_cons, List.sum_append,
      List.sum_cons, List.map_nil, List.sum_nil, tokContribF]
    abel

theorem inv_dispResp (cx : Ctx) (t : VaultTree) {s : PState}
    (hi : Inv cx t s) (tok : GoToken) (rest : List GoToken)
    (hp : s.respChan = tok :: rest) :
    Inv cx t { s with
               respChan := rest
               resp := s.resp ++ [tok]
               wg := s.wg - 1
               dones := s.dones + 1 } := by
  obtain ⟨h1, h2, h3, h4, h5, h6⟩ := hi
  rw [hp] at h2 h6
  constructor
  · simp only []
    omega
  · simp only [List.length_append, List.length_cons, List.length_nil]
      at h2 ⊢
    omega
  · simp only [List.length_append, List.length_cons, List.length_nil]
      at h3 ⊢
    omega
  · exact h4
  · exact h5
  · rw [← h6]
    simp only [coe_append_ms, coe_cons_ms, coe_nil_ms]
    abel

theorem inv_setScanner (cx : Ctx) (t : VaultTree) {s : PState}
    (hi : Inv cx t s) (i : Nat) (w w' : ScanW)
    (hsc : s.scanners[i]? = some w)
    (hfl : scanWFlag w = scanWFlag w')
    (hc1 : scanContrib t w = scanContrib t w')
    (hc2 : fetchContrib t w = fetchContrib t w')
    (hc3 : tokContribS cx t w = tokContribS cx t w') :
    Inv cx t { s with scanners := s.scanners.set i w' } := by
  obtain ⟨h1, h2, h3, h4, h5, h6⟩ := hi
  constructor
  · exact h1
  · simp only [map_sum_set_congr scanWFlag s.scanners i w w' hsc hfl]
    exact h2
  · simp only [length_set_eq]
    exact h3
  · simp only [map_sum_set_congr (scanContrib t) s.scanners i w w' hsc hc1]
    exact h4
  · simp only [map_sum_set_congr (fetchContrib t) s.scanners i w w' hsc hc2]
    exact h5
  · simp only [map_sum_set_congr (tokContribS cx t) s.scanners i w w' hsc
      hc3]
    exact h6

theorem inv_setFetcher (cx : Ctx) (t : VaultTree) {s : PState}
    (hi : Inv cx t s) (i : Nat) (w w' : FetchW)
    (hsc : s.fetchers[i]? = some w)
    (hfl : fetchWFlag w = fetchWFlag w')
    (hc : tokContribF cx t w = tokContribF cx t w') :
    Inv cx t { s with fetchers := s.fetchers.set i w' } := by
  obtain ⟨h1, h2, h3, h4, h5, h6⟩ := hi
  constructor
  · exact h1
  · simp only [map_sum_set_congr fetchWFlag s.fetchers i w w' hsc hfl]
    exact h2
  · simp only [length_set_eq]
    exact h3
  · exact h4
  · exact h5
  · simp only [map_sum_set_congr (tokContribF cx t) s.fetchers i w w' hsc
      hc]
    exact h6

theorem inv_removeScanner (cx : Ctx) (t : VaultTree) {s : PState}
    (hi : Inv cx t s) (i : Nat) (w : ScanW)
    (hsc : s.scanners[i]? = some w)
    (hfl : scanWFlag w = 0)
    (hc1 : scanContrib t w = 0)
    (hc2 : fetchContrib t w = 0)
    (hc3 : tokContribS cx t w = 0) :
    Inv cx t { s with
               scanners := s.scanners.eraseIdx i
               wg := s.wg - 1
               dones := s.dones + 1 } := by
  obtain ⟨h1, h2, h3, h4, h5, h6⟩ := hi
  have e1 := map_sum_eraseIdx scanWFlag s.scanners i w hsc
  have e2 := map_sum_eraseIdx (scanContrib t) s.scanners i w hsc
  have e3 := map_sum_eraseIdx (fetchContrib t) s.scanners i w hsc
  have e4 := map_sum_eraseIdx (tokContribS cx t) s.scanners i w hsc
  have el := length_eraseIdx_add_one hsc
  rw [hfl, add_zero] at e1
  rw [hc1, add_zero] at e2
  rw [hc2, add_zero] at e3
  rw [hc3, add_zero] at e4
  constructor
  · simp only []
    omega
  · simp only [e1]
    exact h2
  · simp only []
    omega
  · simp only [e2]
    exact h4
  · simp only [e3]
    exact h5
  · simp only [e4]
    exact h6

theorem emitScanM_cons (t : VaultTree) (k : Key) (x : String)
    (p : List String) :
    emitScanM t k (x :: p) = pendScan t k x + emitScanM t k p := by
  simp [emitScanM]

theorem emitFetchM_cons (t : VaultTree) (k : Key) (x : String)
    (p : List String) :
    emitFetchM t k (x :: p) = pendFetch t k x + emitFetchM t k p := by
  simp [emitFetchM]

theorem emitTokM_cons (cx : Ctx) (t : VaultTree) (k : Key) (x : String)
    (p : List String) :
    emitTokM cx t k (x :: p) = pendTok cx t k x + emitTokM cx t k p := by
  simp [emitTokM]

theorem listAt_lkeys {t : VaultTree} {k : Key} {cs : Children}
    (h : listAt t k = .lkeys cs) : subAt t k = some (.dir cs) := by
  unfold listAt at h
  rcases hs : subAt t k with _ | u
  · rw [hs] at h
    cases h
  · rw [hs] at h
    cases u with
    | dir cs2 =>
      injection h with h
      rw [h]
    | leaf r => cases h
    | dirErr => cases h
    | dirNil => cases h

theorem optYields_zero (cx : Ctx) (t : VaultTree) (k : Key)
    (h : ∀ cs0, listAt t k ≠ .lkeys cs0) :
    optScanYield t k = 0 ∧ optLeafYield t k = 0 ∧ optTokYield cx t k = 0 := by
  rcases hs : subAt t k with _ | u
  · simp [optScanYield, optLeafYield, optTokYield, hs]
  · cases u with
    | dir cs =>
      exact absurd (by unfold listAt; rw [hs]) (h cs)
    | leaf r =>
      refine ⟨?_, ?_, ?_⟩ <;>
        simp [optScanYield, optLeafYield, optTokYield, hs, scanYieldL,
          leafYieldL, tokYieldL]
    | dirErr =>
      refine ⟨?_, ?_, ?_⟩ <;>
        simp [optScanYield, optLeafYield, optTokYield, hs, scanYieldL,
          leafYieldL, tokYieldL]
    | dirNil =>
      refine ⟨?_, ?_, ?_⟩ <;>
        simp [optScanYield, optLeafYield, optTokYield, hs, scanYieldL,
          leafYieldL, tokYieldL]

theorem inv_scanAdd (cx : Ctx) (t : VaultTree) {s : PState}
    (hi : Inv cx t s) (i : Nat) (k : Key) (x : String) (r : List String)
    (hsc : s.scanners[i]? = some (.emitting k (x :: r))) :
    Inv cx t { s with
               scanners := s.scanners.set i (.emitAdded k x r)
               wg := s.wg + 1
               adds := s.adds + 1 } := by
  obtain ⟨h1, h2, h3, h4, h5, h6⟩ := hi
  have hset := map_sum_set scanWFlag s.scanners i _ (.emitAdded k x r) hsc
  simp only [scanWFlag, add_zero] at hset
  constructor
  · simp only []
    omega
  · simp only []
    omega
  · simp only [length_set_eq]
    exact h3
  · simp only [map_sum_set_congr (scanContrib t) s.scanners i _
      (.emitAdded k x r) hsc rfl]
    exact h4
  · simp only [map_sum_set_congr (fetchContrib t) s.scanners i _
      (.emitAdded k x r) hsc rfl]
    exact h5
  · simp only [map_sum_set_congr (tokContribS cx t) s.scanners i _
      (.emitAdded k x r) hsc rfl]
    exact h6

theorem inv_fetchAdd (cx : Ctx) (t : VaultTree) {s : PState}
    (hi : Inv cx t s) (i : Nat) (tok : GoToken)
    (hsc : s.fetchers[i]? = some (.delivering tok)) :
    Inv cx t { s with
               fetchers := s.fetchers.set i (.deliverAdded tok)
               wg := s.wg + 1
               adds := s.adds + 1 } := by
  obtain ⟨h1, h2, h3, h4, h5, h6⟩ := hi
  have hset := map_sum_set fetchWFlag s.fetchers i _ (.deliverAdded tok) hsc
  simp only [fetchWFlag, add_zero] at hset
  constructor
  · simp only []
    omega
  · simp only []
    omega
  · simp only [length_set_eq]
    exact h3
  · exact h4
  · exact h5
  · simp only [map_sum_set_congr (tokContribF cx t) s.fetchers i _
      (.deliverAdded tok) hsc rfl]
    exact h6

theorem inv_scanSendDir (cx : Ctx) (t : VaultTree) {s : PState}
    (hi : Inv cx t s) (i : Nat) (k : Key) (x : String) (r : List String)
    (hsc : s.scanners[i]? = some (.emitAdded k x r))
    (hx : hasSlashSuffix x = true) :
    Inv cx t { s with
               scanners := s.scanners.set i (.emitting k r)
               scanPool := s.scanPool ++ [k ++ [joinSeg x]] } := by
  obtain ⟨h1, h2, h3, h4, h5, h6⟩ := hi
  have hfl := map_sum_set scanWFlag s.scanners i _ (.emitting k r) hsc
  simp only [scanWFlag, add_zero] at hfl
  have hS1 := map_sum_set (scanContrib t) s.scanners i _ (.emitting k r) hsc
  simp only [scanContrib, emitScanM_cons, pendScan, hx, if_true,
    ← add_assoc] at hS1
  have hS1c := add_right_cancel hS1
  have hS2 := map_sum_set (fetchContrib t) s.scanners i _ (.emitting k r) hsc
  simp only [fetchContrib, emitFetchM_cons, pendFetch, hx, if_true,
    ← add_assoc] at hS2
  have hS2c := add_right_cancel hS2
  have hS3 := map_sum_set (tokContribS cx t) s.scanners i _ (.emitting k r)
    hsc
  simp only [tokContribS, emitTokM_cons, pendTok, hx, if_true,
    ← add_assoc] at hS3
  have hS3c := add_right_cancel hS3
  constructor
  · exact h1
  · simp only [List.length_append, List.length_cons, List.length_nil]
    omega
  · simp only [length_set_eq]
    exact h3
  · rw [← h4, ← hS1c]
    simp only [List.map_append, List.map_cons, List.map_nil,
      List.sum_append, List.sum_cons, List.sum_nil]
    abel
  · rw [← h5, ← hS2c]
    simp only [List.map_append, List.map_cons, List.map_nil,
      List.sum_append, List.sum_cons, List.sum_nil]
    abel
  · rw [← h6, ← hS3c]
    simp only [List.map_append, List.map_cons, List.map_nil,
      List.sum_append, List.sum_cons, List.sum_nil]
    abel

theorem inv_scanSendLeaf (cx : Ctx) (t : VaultTree) {s : PState}
    (hi : Inv cx t s) (i : Nat) (k : Key) (x : String) (r : List String)
    (hsc : s.scanners[i]? = some (.emitAdded k x r))
    (hx : hasSlashSuffix x = false) :
    Inv cx t { s with
               scanners := s.scanners.set i (.emitting k r)
               keyPool := s.keyPool ++ [k ++ [joinSeg x]] } := by
  obtain ⟨h1, h2, h3, h4, h5, h6⟩ := hi
  have hfl := map_sum_set scanWFlag s.scanners i _ (.emitting k r) hsc
  simp only [scanWFlag, add_zero] at hfl
  have hS1 := map_sum_set (scanContrib t) s.scanners i _ (.emitting k r) hsc
  simp only [scanContrib, emitScanM_cons, pendScan, hx, Bool.false_eq_true,
    if_false, zero_add] at hS1
  have hS1c := add_right_cancel hS1
  have hS2 := map_sum_set (fetchContrib t) s.scanners i _ (.emitting k r) hsc
  simp only [fetchContrib, emitFetchM_cons, pendFetch, hx,
    Bool.false_eq_true, if_false, ← add_assoc] at hS2
  have hS2c := add_right_cancel hS2
  have hS3 := map_sum_set (tokContribS cx t) s.scanners i _ (.emitting k r)
    hsc
  simp only [tokContribS, emitTokM_cons, pendTok, hx, Bool.false_eq_true,
    if_false, ← add_assoc] at hS3
  have hS3c := add_right_cancel hS3
  constructor
  · exact h1
  · simp only [List.length_append, List.length_cons, List.length_nil]
    omega
  · simp only [length_set_eq]
    exact h3
  · rw [← h4, ← hS1c]
  · rw [← h5, ← hS2c]
    simp only [coe_append_ms, coe_cons_ms, coe_nil_ms]
    abel
  · rw [← h6, ← hS3c]
    simp only [List.map_append, List.map_cons, List.map_nil,
      List.sum_append, List.sum_cons, List.sum_nil]
    abel

theorem inv_fetchSend (cx : Ctx) (t : VaultTree) {s : PState}
    (hi : Inv cx t s) (i : Nat) (tok : GoToken)
    (hsc : s.fetchers[i]? = some (.deliverAdded tok)) :
    Inv cx t { s with
               fetchers := s.fetchers.set i .fexitW
               respChan := s.respChan ++ [tok] } := by
  obtain ⟨h1, h2, h3, h4, h5, h6⟩ := hi
  have hfl := map_sum_set fetchWFlag s.fetchers i _ .fexitW hsc
  simp only [fetchWFlag, add_zero] at hfl
  have hS := map_sum_set (tokContribF cx t) s.fetchers i _ .fexitW hsc
  simp only [tokContribF, add_zero] at hS
  constructor
  · exact h1
  · simp only [List.length_append, List.length_cons, List.length_nil]
    omega
  · simp only [length_set_eq]
    exact h3
  · exact h4
  · exact h5
  · rw [← h6, ← hS]
    simp only [coe_append_ms, coe_cons_ms, coe_nil_ms]
    abel

theorem inv_removeFetcher (cx : Ctx) (t : VaultTree) {s : PState}
    (hi : Inv cx t s) (i : Nat) (w : FetchW)
    (hsc : s.fetchers[i]? = some w)
    (hfl : fetchWFlag w = 0)
    (hc : tokContribF cx t w = 0) :
    Inv cx t { s with
               fetchers := s.fetchers.eraseIdx i
               wg := s.wg - 1
               dones := s.dones + 1 } := by
  obtain ⟨h1, h2, h3, h4, h5, h6⟩ := hi
  have e1 := map_sum_eraseIdx fetchWFlag s.fetchers i w hsc
  have e4 := map_sum_eraseIdx (tokContribF cx t) s.fetchers i w hsc
  have el := length_eraseIdx_add_one hsc
  rw [hfl, add_zero] at e1
  rw [hc, add_zero] at e4
  constructor
  · simp only []
    omega
  · simp only [e1]
    exact h2
  · simp only []
    omega
  · exact h4
  · exact h5
  · simp only [e4]
    exact h6

theorem inv_scanListKids (cx : Ctx) (t : VaultTree) (hw : WFb t = true)
    {s : PState} (hi : Inv cx t s) (i : Nat) (k : Key) (cs : Children)
    (hsc : s.scanners[i]? = some (.listing k))
    (hl : listAt t k = .lkeys cs) :
    Inv cx t { s with
               scanners := s.scanners.set i (.emitting k (renderC cs)) } := by
  have hsub := listAt_lkeys hl
  have hcorr := children_correspond cx t k cs (child_resolve hw hsub)
  apply inv_setScanner cx t hi i _ _ hsc
  · rfl
  · show optScanYield t k = emitScanM t k (renderC cs)
    unfold optScanYield
    rw [hsub]
    show (scanYieldL (.dir cs) k : Multiset Key) = _
    rw [show scanYieldL (.dir cs) k = scanYieldLC cs k by simp [scanYieldL]]
    exact hcorr.1
  · show optLeafYield t k = emitFetchM t k (renderC cs)
    unfold optLeafYield
    rw [hsub]
    show (leafYieldL (.dir cs) k : Multiset Key) = _
    rw [show leafYieldL (.dir cs) k = leafYieldLC cs k by simp [leafYieldL]]
    exact hcorr.2.1
  · show optTokYield cx t k = emitTokM cx t k (renderC cs)
    unfold optTokYield
    rw [hsub]
    show (tokYieldL cx (.dir cs) k : Multiset GoToken) = _
    rw [show tokYieldL cx (.dir cs) k = tokYieldLC cx cs k by
      simp [tokYieldL]]
    exact hcorr.2.2

/-- Every step of the machine preserves the invariant, for a well-formed
namespace. -/
theorem inv_step (cx : Ctx) (t : VaultTree) (hw : WFb t = true)
    {s s' : PState} (hd : Step cx t s s') (hi : Inv cx t s) :
    Inv cx t s' := by
  obtain ⟨ch, hd⟩ := hd
  cases ch with
  | dispScan =>
    simp only [doChoice] at hd
    rcases hp : s.scanPool with _ | ⟨k, rest⟩ <;> rw [hp] at hd
    · cases hd
    · cases hd
      exact inv_dispScan cx t hi k rest hp
  | dispFetch =>
    simp only [doChoice] at hd
    rcases hp : s.keyPool with _ | ⟨k, rest⟩ <;> rw [hp] at hd
    · cases hd
    · cases hd
      exact inv_dispFetch cx t hi k rest hp
  | dispResp =>
    simp only [doChoice] at hd
    rcases hp : s.respChan with _ | ⟨tok, rest⟩ <;> rw [hp] at hd
    · cases hd
    · cases hd
      exact inv_dispResp cx t hi tok rest hp
  | wScan i =>
    simp only [doChoice] at hd
    rcases hsc : s.scanners[i]? with _ | w <;> rw [hsc] at hd
    · cases hd
    · cases hd
      cases w with
      | listing k =>
        show Inv cx t (scanStep t s i (.listing k))
        simp only [scanStep]
        rcases hl : listAt t k with _ | _ | cs
        · have hz := optYields_zero cx t k
            (by rw [hl]; intro cs0 hc; cases hc)
          exact inv_removeScanner cx t hi i _ hsc rfl hz.1 hz.2.1 hz.2.2
        · have hz := optYields_zero cx t k
            (by rw [hl]; intro cs0 hc; cases hc)
          exact inv_removeScanner cx t hi i _ hsc rfl hz.1 hz.2.1 hz.2.2
        · exact inv_scanListKids cx t hw hi i k cs hsc hl
      | emitting k p =>
        cases p with
        | nil =>
          exact inv_removeScanner cx t hi i _ hsc rfl rfl rfl rfl
        | cons x r =>
          exact inv_scanAdd cx t hi i k x r hsc
      | emitAdded k x r =>
        show Inv cx t (scanStep t s i (.emitAdded k x r))
        simp only [scanStep]
        rcases hx : hasSlashSuffix x with _ | _
        · simp only [hx, Bool.false_eq_true, if_false]
          exact inv_scanSendLeaf cx t hi i k x r hsc hx
        · simp only [hx, if_true]
          exact inv_scanSendDir cx t hi i k x r hsc hx
  | wFetch i =>
    simp only [doChoice] at hd
    rcases hsc : s.fetchers[i]? with _ | w <;> rw [hsc] at hd
    · cases hd
    · cases hd
      cases w with
      | reading k =>
        show Inv cx t (fetchStep cx t s i (.reading k))
        simp only [fetchStep]
        rcases hf : fetchTok cx (readAt t k) k with _ | tok
        · refine inv_removeFetcher cx t hi i _ hsc rfl ?_
          show tokAt cx t k = 0
          unfold tokAt
          rw [hf]
          rfl
        · refine inv_setFetcher cx t hi i _ _ hsc rfl ?_
          show tokAt cx t k = {tok}
          unfold tokAt
          rw [hf]
          rfl
      | delivering tok =>
        exact inv_fetchAdd cx t hi i tok hsc
      | deliverAdded tok =>
        exact inv_fetchSend cx t hi i tok hsc
      | fexitW =>
        exact inv_removeFetcher cx t hi i _ hsc rfl rfl

/-- The invariant holds at every reachable state. -/
theorem inv_reach (cx : Ctx) (t : VaultTree) (hw : WFb t = true)
    {s : PState} (hr : Reach cx t s) : Inv cx t s := by
  induction hr with
  | refl => exact inv_init cx t
  | tail hsteps hstep ih => exact inv_step cx t hw hstep ih

/-! ### The counter equals the outstanding work -/

theorem sum_scanWUnits (l : List ScanW) :
    (l.map scanWUnits).sum = l.length + (l.map scanWFlag).sum := by
  induction l with
  | nil => rfl
  | cons w rest ih =>
    simp only [List.map_cons, List.sum_cons, List.length_cons, scanWUnits,
      ih]
    omega

theorem sum_fetchWUnits (l : List FetchW) :
    (l.map fetchWUnits).sum = l.length + (l.map fetchWFlag).sum := by
  induction l with
  | nil => rfl
  | cons w rest ih =>
    simp only [List.map_cons, List.sum_cons, List.length_cons, fetchWUnits,
      ih]
    omega

/-- The WaitGroup counter equals the number of queued items, undelivered
records, running workers, and unflushed Adds. -/
theorem wg_eq_units (cx : Ctx) (t : VaultTree) {s : PState}
    (hi : Inv cx t s) : s.wg = (units s : Int) := by
  obtain ⟨h1, h2, h3, _, _, _⟩ := hi
  unfold units
  rw [sum_scanWUnits, sum_fetchWUnits] at *
  omega

/-- At counter zero everything is drained: no queued work, no undelivered
record, no running worker. -/
theorem terminal_drained (cx : Ctx) (t : VaultTree) {s : PState}
    (hi : Inv cx t s) (h0 : s.wg = 0) :
    s.scanPool = [] ∧ s.keyPool = [] ∧ s.respChan = []
    ∧ s.scanners = [] ∧ s.fetchers = [] := by
  have hu := wg_eq_units cx t hi
  rw [h0] at hu
  have hz : units s = 0 := by omega
  unfold units at hz
  rw [sum_scanWUnits, sum_fetchWUnits] at hz
  refine ⟨?_, ?_, ?_, ?_, ?_⟩ <;> rw [← List.length_eq_zero] <;> omega

/-- Claim C1: at every reachable state of the traversal the WaitGroup
counter is non-negative; it is at least the number of queued work items,
undelivered records and running workers, so it is never observed at zero
while any of those exist (increments happen strictly before items become
visible); and it is zero exactly when the traversal and all pending
deliveries have fully drained. -/
theorem counter_invariant (cx : Ctx) (t : VaultTree) (hw : WFb t = true)
    {s : PState} (hr : Reach cx t s) :
    0 ≤ s.wg
    ∧ (s.wg = 0 ↔ (s.scanPool = [] ∧ s.keyPool = [] ∧ s.respChan = []
        ∧ s.scanners = [] ∧ s.fetchers = []))
    ∧ ((s.scanPool.length + s.keyPool.length + s.respChan.length
        + s.scanners.length + s.fetchers.length : Int) ≤ s.wg) := by
  have hi := inv_reach cx t hw hr
  have hu := wg_eq_units cx t hi
  have husum : units s = s.scanPool.length + s.keyPool.length
      + s.respChan.length + (s.scanners.length
        + (s.scanners.map scanWFlag).sum)
      + (s.fetchers.length + (s.fetchers.map fetchWFlag).sum) := by
    unfold units
    rw [sum_scanWUnits, sum_fetchWUnits]
  refine ⟨by omega, ⟨?_, ?_⟩, by omega⟩
  · intro h0
    exact terminal_drained cx t hi h0
  · rintro ⟨e1, e2, e3, e4, e5⟩
    rw [hu, husum, e1, e2, e3, e4, e5]
    rfl

/-- Context and tree used by several closed witnesses. -/
def cxW : Ctx :=
  { gen := fun _ => some "111111", now := 0, secretField := "secret",
    next := false }

/-- Closed witness for counter_invariant, at the initial state of an
invocation against an empty directory. -/
theorem counter_invariant_witness :
    0 ≤ initState.wg
    ∧ (initState.wg = 0 ↔ (initState.scanPool = []
        ∧ initState.keyPool = [] ∧ initState.respChan = []
        ∧ initState.scanners = [] ∧ initState.fetchers = []))
    ∧ ((initState.scanPool.length + initState.keyPool.length
        + initState.respChan.length + initState.scanners.length
        + initState.fetchers.length : Int) ≤ initState.wg) :=
  counter_invariant cxW .dirNil (by decide) Relation.ReflTransGen.refl

/-- Claim C7 as amended: the ledger of wg.Add and wg.Done calls.  At every
reachable
state the Adds so far are exactly: one per spawned worker (performed
before the worker's work item became visible, the root's by the caller),
one per delivered record, plus those still buffered in channels or pending
inside a worker; the Dones so far are exactly one per finished worker
(performed by the worker itself on exit, whether or not it delivered) plus
one per consumed record.  At completion both ledgers close: Adds = Dones =
spawned workers + delivered records, so every worker nets to zero. -/
theorem counter_ledger (cx : Ctx) (t : VaultTree) (hw : WFb t = true)
    {s : PState} (hr : Reach cx t s) :
    s.adds = s.spawnedScans.length + s.spawnedFetches.length
      + s.resp.length
      + (s.scanPool.length + s.keyPool.length + s.respChan.length
        + (s.scanners.map scanWFlag).sum + (s.fetchers.map fetchWFlag).sum)
    ∧ s.dones + s.scanners.length + s.fetchers.length
        = s.spawnedScans.length + s.spawnedFetches.length + s.resp.length
    ∧ (s.wg = 0 →
        s.adds = s.spawnedScans.length + s.spawnedFetches.length
          + s.resp.length
        ∧ s.dones = s.adds) := by
  have hi := inv_reach cx t hw hr
  obtain ⟨h1, h2, h3, _, _, _⟩ := hi
  refine ⟨by omega, h3, ?_⟩
  intro h0
  obtain ⟨e1, e2, e3, e4, e5⟩ := terminal_drained cx t
    (inv_reach cx t hw hr) h0
  rw [e1, e2, e3, e4, e5] at h2
  rw [e4, e5] at h3
  simp only [List.length_nil, List.map_nil, List.sum_nil] at h2 h3
  constructor
  · omega
  · have hw0 := wg_eq_units cx t (inv_reach cx t hw hr)
    rw [h0] at hw0
    omega

/-! ### The discovered keys are pairwise distinct -/

mutual
/-- Every key yielded below a node extends the node's key properly. -/
theorem scanYield_shape (u : VaultTree) (kp : Key) (hw : WFb u = true) :
    ∀ q ∈ scanYieldL u kp, q.take kp.length = kp ∧ kp.length < q.length :=
  match u with
  | .leaf r => by intro q hq; simp [scanYieldL] at hq
  | .dirErr => by intro q hq; simp [scanYieldL] at hq
  | .dirNil => by intro q hq; simp [scanYieldL] at hq
  | .dir cs => by
    intro q hq
    rw [show scanYieldL (.dir cs) kp = scanYieldLC cs kp by
      simp [scanYieldL]] at hq
    obtain ⟨n, _, ht, hl⟩ :=
      scanYieldLC_shape cs kp (WF_dir_parts hw).2 q hq
    refine ⟨?_, by omega⟩
    have h2 : (q.take (kp.length + 1)).take kp.length = kp := by
      rw [ht, List.take_left]
    rw [List.take_take] at h2
    simpa [Nat.min_def] using h2

theorem scanYieldLC_shape (cs : Children) (k : Key) (hwc : WFc cs = true) :
    ∀ q ∈ scanYieldLC cs k,
      ∃ n, n ∈ namesC cs ∧ q.take (k.length + 1) = k ++ [n]
        ∧ k.length < q.length :=
  match cs with
  | .nil => by intro q hq; simp [scanYieldLC] at hq
  | .cons n u rest => by
    intro q hq
    unfold WFc at hwc
    rw [Bool.and_eq_true, Bool.and_eq_true] at hwc
    rw [show scanYieldLC (.cons n u rest) k
        = (if u.isLeaf then [] else (k ++ [n]) :: scanYieldL u (k ++ [n]))
          ++ scanYieldLC rest k by simp [scanYieldLC]] at hq
    rw [List.mem_append] at hq
    rcases hq with hq | hq
    · by_cases hl : u.isLeaf
      · rw [if_pos hl] at hq
        cases hq
      · rw [if_neg hl] at hq
        rcases hq with _ | ⟨_, hq⟩
        · refine ⟨n, by simp [namesC], ?_, by simp⟩
          apply List.take_all_of_le
          simp
        · obtain ⟨ht, hlen⟩ := scanYield_shape u (k ++ [n]) hwc.1.2 q hq
          refine ⟨n, by simp [namesC], ?_, ?_⟩
          · rw [← ht]
            congr 1
            simp
          · simp at hlen
            omega
    · obtain ⟨m, hm, ht, hlen⟩ := scanYieldLC_shape rest k hwc.2 q hq
      exact ⟨m, by simp [namesC, hm], ht, hlen⟩
end

mutual
/-- Every leaf key yielded below a node extends the node's key properly. -/
theorem leafYield_shape (u : VaultTree) (kp : Key) (hw : WFb u = true) :
    ∀ q ∈ leafYieldL u kp, q.take kp.length = kp ∧ kp.length < q.length :=
  match u with
  | .leaf r => by intro q hq; simp [leafYieldL] at hq
  | .dirErr => by intro q hq; simp [leafYieldL] at hq
  | .dirNil => by intro q hq; simp [leafYieldL] at hq
  | .dir cs => by
    intro q hq
    rw [show leafYieldL (.dir cs) kp = leafYieldLC cs kp by
      simp [leafYieldL]] at hq
    obtain ⟨n, _, ht, hl⟩ :=
      leafYieldLC_shape cs kp (WF_dir_parts hw).2 q hq
    refine ⟨?_, by omega⟩
    have h2 : (q.take (kp.length + 1)).take kp.length = kp := by
      rw [ht, List.take_left]
    rw [List.take_take] at h2
    simpa [Nat.min_def] using h2

theorem leafYieldLC_shape (cs : Children) (k : Key) (hwc : WFc cs = true) :
    ∀ q ∈ leafYieldLC cs k,
      ∃ n, n ∈ namesC cs ∧ q.take (k.length + 1) = k ++ [n]
        ∧ k.length < q.length :=
  match cs with
  | .nil => by intro q hq; simp [leafYieldLC] at hq
  | .cons n u rest => by
    intro q hq
    unfold WFc at hwc
    rw [Bool.and_eq_true, Bool.and_eq_true] at hwc
    rw [show leafYieldLC (.cons n u rest) k
        = (if u.isLeaf then [k ++ [n]] else leafYieldL u (k ++ [n]))
          ++ leafYieldLC rest k by simp [leafYieldLC]] at hq
    rw [List.mem_append] at hq
    rcases hq with hq | hq
    · by_cases hl : u.isLeaf
      · rw [if_pos hl] at hq
        rcases hq with _ | ⟨_, hq⟩
        · refine ⟨n, by simp [namesC], ?_, by simp⟩
          apply List.take_all_of_le
          simp
        · cases hq
      · rw [if_neg hl] at hq
        obtain ⟨ht, hlen⟩ := leafYield_shape u (k ++ [n]) hwc.1.2 q hq
        refine ⟨n, by simp [namesC], ?_, ?_⟩
        · rw [← ht]
          congr 1
          simp
        · simp at hlen
          omega
    · obtain ⟨m, hm, ht, hlen⟩ := leafYieldLC_shape rest k hwc.2 q hq
      exact ⟨m, by simp [namesC, hm], ht, hlen⟩
end

mutual
/-- The directory keys discovered below a well-formed node are pairwise
distinct. -/
theorem scanYield_nodup (u : VaultTree) (kp : Key) (hw : WFb u = true) :
    (scanYieldL u kp).Nodup :=
  match u with
  | .leaf r => by simp [scanYieldL]
  | .dirErr => by simp [scanYieldL]
  | .dirNil => by simp [scanYieldL]
  | .dir cs => by
    rw [show scanYieldL (.dir cs) kp = scanYieldLC cs kp by
      simp [scanYieldL]]
    exact scanYieldLC_nodup cs kp (WF_dir_parts hw).2 (WF_dir_parts hw).1

theorem scanYieldLC_nodup (cs : Children) (k : Key) (hwc : WFc cs = true)
    (hnd : (namesC cs).Nodup) : (scanYieldLC cs k).Nodup :=
  match cs with
  | .nil => by simp [scanYieldLC]
  | .cons n u rest => by
    unfold WFc at hwc
    rw [Bool.and_eq_true, Bool.and_eq_true] at hwc
    unfold namesC at hnd
    rw [List.nodup_cons] at hnd
    rw [show scanYieldLC (.cons n u rest) k
        = (if u.isLeaf then [] else (k ++ [n]) :: scanYieldL u (k ++ [n]))
          ++ scanYieldLC rest k by simp [scanYieldLC]]
    rw [List.nodup_append]
    refine ⟨?_, scanYieldLC_nodup rest k hwc.2 hnd.2, ?_⟩
    · by_cases hl : u.isLeaf
      · simp [hl]
      · rw [if_neg hl, List.nodup_cons]
        constructor
        · intro hmem
          have := (scanYield_shape u (k ++ [n]) hwc.1.2 _ hmem).2
          simp at this
        · exact scanYield_nodup u (k ++ [n]) hwc.1.2
    · intro q hq hq2
      obtain ⟨m, hm, htm, _⟩ :=
        scanYieldLC_shape rest k hwc.2 q hq2
      have hn : q.take (k.length + 1) = k ++ [n] := by
        by_cases hl : u.isLeaf
        · rw [if_pos hl] at hq
          cases hq
        · rw [if_neg hl] at hq
          rcases hq with _ | ⟨_, hq⟩
          · apply List.take_all_of_le
            simp
          · have := (scanYield_shape u (k ++ [n]) hwc.1.2 q hq).1
            rw [← this]
            congr 1
            simp
      rw [hn] at htm
      have : n = m := by
        have := List.append_cancel_left htm
        simpa using this
      exact hnd.1 (this ▸ hm)
end

mutual
/-- The leaf keys discovered below a well-formed node are pairwise
distinct. -/
theorem leafYield_nodup (u : VaultTree) (kp : Key) (hw : WFb u = true) :
    (leafYieldL u kp).Nodup :=
  match u with
  | .leaf r => by simp [leafYieldL]
  | .dirErr => by simp [leafYieldL]
  | .dirNil => by simp [leafYieldL]
  | .dir cs => by
    rw [show leafYieldL (.dir cs) kp = leafYieldLC cs kp by
      simp [leafYieldL]]
    exact leafYieldLC_nodup cs kp (WF_dir_parts hw).2 (WF_dir_parts hw).1

theorem leafYieldLC_nodup (cs : Children) (k : Key) (hwc : WFc cs = true)
    (hnd : (namesC cs).Nodup) : (leafYieldLC cs k).Nodup :=
  match cs with
  | .nil => by simp [leafYieldLC]
  | .cons n u rest => by
    unfold WFc at hwc
    rw [Bool.and_eq_true, Bool.and_eq_true] at hwc
    unfold namesC at hnd
    rw [List.nodup_cons] at hnd
    rw [show leafYieldLC (.cons n u rest) k
        = (if u.isLeaf then [k ++ [n]] else leafYieldL u (k ++ [n]))
          ++ leafYieldLC rest k by simp [leafYieldLC]]
    rw [List.nodup_append]
    refine ⟨?_, leafYieldLC_nodup rest k hwc.2 hnd.2, ?_⟩
    · by_cases hl : u.isLeaf
      · simp [hl]
      · rw [if_neg hl]
        exact leafYield_nodup u (k ++ [n]) hwc.1.2
    · intro q hq hq2
      obtain ⟨m, hm, htm, _⟩ :=
        leafYieldLC_shape rest k hwc.2 q hq2
      have hn : q.take (k.length + 1) = k ++ [n] := by
        by_cases hl : u.isLeaf
        · rw [if_pos hl] at hq
          rcases hq with _ | ⟨_, hq⟩
          · apply List.take_all_of_le
            simp
          · cases hq
        · rw [if_neg hl] at hq
          have := (leafYield_shape u (k ++ [n]) hwc.1.2 q hq).1
          rw [← this]
          congr 1
          simp
      rw [hn] at htm
      have : n = m := by
        have := List.append_cancel_left htm
        simpa using this
      exact hnd.1 (this ▸ hm)
end

theorem subAt_nil (t : VaultTree) : subAt t [] = some t := by
  simp [subAt]

/-- Claim C2: at completion, the scan workers spawned are exactly the root
key plus every discovered directory key (M+1 of them), the fetch workers
spawned are exactly the discovered leaf keys (N of them), and each list is
duplicate-free: every key reached a work item at most once and every
discovered leaf was read exactly once. -/
theorem traversal_counts (cx : Ctx) (t : VaultTree) (hw : WFb t = true)
    {s : PState} (hr : Reach cx t s) (h0 : s.wg = 0) :
    s.spawnedScans.Perm (([] : Key) :: scanYieldL t [])
    ∧ s.spawnedFetches.Perm (leafYieldL t [])
    ∧ s.spawnedScans.length = (scanYieldL t []).length + 1
    ∧ s.spawnedFetches.length = (leafYieldL t []).length
    ∧ s.spawnedScans.Nodup
    ∧ s.spawnedFetches.Nodup := by
  have hi := inv_reach cx t hw hr
  obtain ⟨e1, e2, e3, e4, e5⟩ := terminal_drained cx t hi h0
  obtain ⟨_, _, _, h4, h5, _⟩ := hi
  rw [e1, e4] at h4
  rw [e1, e2, e4] at h5
  simp only [List.map_nil, List.sum_nil, add_zero] at h4 h5
  have hscan : (s.spawnedScans : Multiset Key)
      = ((([] : Key) :: scanYieldL t []) : Multiset Key) := by
    rw [coe_cons_ms]
    rw [show poolS t [] = {([] : Key)} + optScanYield t [] from rfl] at h4
    rw [show optScanYield t [] = (scanYieldL t [] : Multiset Key) by
      unfold optScanYield; rw [subAt_nil]] at h4
    exact h4
  have hfetch : (s.spawnedFetches : Multiset Key)
      = ((leafYieldL t []) : Multiset Key) := by
    rw [show optLeafYield t [] = (leafYieldL t [] : Multiset Key) by
      unfold optLeafYield; rw [subAt_nil]] at h5
    simpa using h5
  have hps : s.spawnedScans.Perm (([] : Key) :: scanYieldL t []) :=
    Multiset.coe_eq_coe.mp hscan
  have hpf : s.spawnedFetches.Perm (leafYieldL t []) :=
    Multiset.coe_eq_coe.mp hfetch
  have hnodup1 : (([] : Key) :: scanYieldL t []).Nodup := by
    rw [List.nodup_cons]
    constructor
    · intro hmem
      have := (scanYield_shape t [] hw [] hmem).2
      simp at this
    · exact scanYield_nodup t [] hw
  refine ⟨hps, hpf, ?_, hpf.length_eq, ?_, ?_⟩
  · rw [hps.length_eq]
    simp
  · exact (hps.nodup_iff).mpr hnodup1
  · exact (hpf.nodup_iff).mpr (leafYield_nodup t [] hw)

/-! ### Concrete runs, for closed witnesses and counterexamples -/

/-- A store with two leaves a and b under the root. -/
def wTree : VaultTree :=
  .dir (.cons "a" (.leaf (.rok [("secret", "ab")]))
    (.cons "b" (.leaf (.rok [("secret", "cd")])) .nil))

/-- A full schedule over wTree: scan the root, fetch a then b, consume
both records. -/
def schedW1 : List Choice :=
  [.dispScan, .wScan 0, .wScan 0, .wScan 0, .wScan 0, .wScan 0, .wScan 0,
   .dispFetch, .dispFetch,
   .wFetch 0, .wFetch 0, .wFetch 0, .wFetch 0,
   .wFetch 0, .wFetch 0, .wFetch 0, .wFetch 0,
   .dispResp, .dispResp]

def endW1 : PState :=
  (applySched cxW wTree schedW1 initState).getD initState

/-- Closed witness for traversal_counts: against wTree (two leaves, no
subdirectory) a terminal run spawned exactly one scan worker and two
fetch workers, each key once. -/
theorem traversal_counts_witness :
    endW1.wg = 0
    ∧ endW1.spawnedScans.length = (scanYieldL wTree []).length + 1
    ∧ endW1.spawnedFetches.length = (leafYieldL wTree []).length
    ∧ endW1.spawnedFetches.length = 2
    ∧ endW1.spawnedScans.Nodup
    ∧ endW1.spawnedFetches.Nodup := by
  have hr : Reach cxW wTree endW1 :=
    applySched_sound cxW wTree schedW1 initState endW1 (by decide)
  have h := traversal_counts cxW wTree (by decide) hr (by decide)
  exact ⟨by decide, h.2.2.1, h.2.2.2.1, by decide, h.2.2.2.2.1,
    h.2.2.2.2.2⟩

/-- Claim C7, counterexample: the counter is NOT incremented exactly once
per spawned worker with no other changes.  A complete run against a
directory of two leaf entries spawns three workers in total (one scan and
two fetch, all finished at the end), yet the counter receives five
increments and five decrements: besides the one Add before each worker
starts, fetchTokenFromKey performs an extra wg.Add(1) per delivered
record and the dispatcher an extra wg.Done() per consumed record, so the
Add count exceeds the worker count even with the caller's initial Add
included. -/
theorem wg_once_per_worker_cx :
    Reach cxW wTree endW1
    ∧ endW1.wg = 0
    ∧ endW1.scanners = [] ∧ endW1.fetchers = []
    ∧ endW1.spawnedScans.length + endW1.spawnedFetches.length = 3
    ∧ endW1.adds = 5 ∧ endW1.dones = 5
    ∧ endW1.adds
        ≠ endW1.spawnedScans.length + endW1.spawnedFetches.length
    ∧ endW1.adds
        ≠ endW1.spawnedScans.length + endW1.spawnedFetches.length + 1 :=
  ⟨applySched_sound cxW wTree schedW1 initState endW1 (by decide),
   by decide⟩

/-! ### Termination: a potential that every step strictly decreases -/

mutual
/-- Upper bound on the atomic steps a scan of this node and everything it
transitively spawns will still take. -/
def scanPhi : VaultTree → Nat
  | .dir cs => 2 + scanPhiC cs
  | _ => 1

def scanPhiC : Children → Nat
  | .nil => 0
  | .cons _ u rest =>
    2 + (if u.isLeaf then 6 else 1 + scanPhi u) + scanPhiC rest
end

def optScanPhi (t : VaultTree) (k : Key) : Nat :=
  match subAt t k with
  | some u => scanPhi u
  | none => 1

def pendPhi (t : VaultTree) (k : Key) (x : String) : Nat :=
  if hasSlashSuffix x then 1 + optScanPhi t (k ++ [joinSeg x]) else 6

def emitPhi (t : VaultTree) (k : Key) (p : List String) : Nat :=
  (p.map (fun x => 2 + pendPhi t k x)).sum + 1

def scanWPhi (t : VaultTree) : ScanW → Nat
  | .listing k => 1 + (match listAt t k with
      | .lkeys cs => emitPhi t k (renderC cs)
      | _ => 0)
  | .emitting k p => emitPhi t k p
  | .emitAdded k x r => 1 + pendPhi t k x + emitPhi t k r

def fetchWPhi : FetchW → Nat
  | .reading _ => 5
  | .delivering _ => 4
  | .deliverAdded _ => 3
  | .fexitW => 1

def phi (t : VaultTree) (s : PState) : Nat :=
  (s.scanPool.map (fun k => 1 + scanWPhi t (.listing k))).sum
  + 6 * s.keyPool.length + s.respChan.length
  + (s.scanners.map (scanWPhi t)).sum + (s.fetchers.map fetchWPhi).sum

theorem emitPhi_cons (t : VaultTree) (k : Key) (x : String)
    (p : List String) :
    emitPhi t k (x :: p) = 2 + pendPhi t k x + emitPhi t k p := by
  unfold emitPhi
  simp only [List.map_cons, List.sum_cons]
  omega

theorem scanPhi_pos (u : VaultTree) : 1 ≤ scanPhi u := by
  cases u <;> simp [scanPhi] <;> omega

theorem optScanPhi_pos (t : VaultTree) (k : Key) : 1 ≤ optScanPhi t k := by
  unfold optScanPhi
  rcases hs : subAt t k with _ | u
  · simp [hs]
  · simp only [hs]
    exact scanPhi_pos u

theorem scanPhiC_eq (t : VaultTree) (k : Key) (cs : Children)
    (hres : ∀ n u', memC n u' cs →
      subAt t (k ++ [n]) = some u' ∧ goodName n = true) :
    ((renderC cs).map (fun x => 2 + pendPhi t k x)).sum = scanPhiC cs := by
  induction cs using childrenInd with
  | hn => simp [renderC, scanPhiC]
  | hc n u rest ih =>
    obtain ⟨hs, hg⟩ := hres n u (Or.inl ⟨rfl, rfl⟩)
    rw [show renderC (.cons n u rest) = renderName n u :: renderC rest by
      simp [renderC]]
    rw [show scanPhiC (.cons n u rest)
        = 2 + (if u.isLeaf then 6 else 1 + scanPhi u) + scanPhiC rest by
      simp [scanPhiC]]
    simp only [List.map_cons, List.sum_cons]
    rw [ih (fun n' u' hm => hres n' u' (Or.inr hm))]
    by_cases hl : u.isLeaf
    · have hns : hasSlashSuffix (renderName n u) = false := by
        rw [show renderName n u = n by simp [renderName, hl]]
        exact goodName_not_slash hg
      rw [show pendPhi t k (renderName n u) = 6 by
        unfold pendPhi; rw [hns]; simp]
      rw [if_pos hl]
    · have hrn : renderName n u = n ++ "/" := by
        simp [renderName, hl]
      have hps : pendPhi t k (renderName n u) = 1 + scanPhi u := by
        unfold pendPhi
        rw [hrn, hasSlashSuffix_slash, if_pos rfl, joinSeg_slash]
        unfold optScanPhi
        rw [hs]
      rw [hps, if_neg hl]

/-- The structural potential dominates the listing worker's potential. -/
theorem scanWPhi_listing_le (t : VaultTree) (hw : WFb t = true) (k : Key) :
    scanWPhi t (.listing k) ≤ optScanPhi t k := by
  show 1 + (match listAt t k with
      | .lkeys cs => emitPhi t k (renderC cs)
      | _ => 0) ≤ _
  rcases hl : listAt t k with _ | _ | cs
  · simp only []
    have := optScanPhi_pos t k
    omega
  · simp only []
    have := optScanPhi_pos t k
    omega
  · simp only []
    have hsub := listAt_lkeys hl
    have heq := scanPhiC_eq t k cs (child_resolve hw hsub)
    unfold emitPhi
    rw [heq]
    unfold optScanPhi
    rw [hsub]
    show 1 + (scanPhiC cs + 1) ≤ scanPhi (.dir cs)
    rw [show scanPhi (.dir cs) = 2 + scanPhiC cs by simp [scanPhi]]
    omega

/-- Every step strictly decreases the potential. -/
theorem phi_step (cx : Ctx) (t : VaultTree) (hw : WFb t = true)
    {s s' : PState} (hd : Step cx t s s') : phi t s' < phi t s := by
  obtain ⟨ch, hd⟩ := hd
  cases ch with
  | dispScan =>
    simp only [doChoice] at hd
    rcases hp : s.scanPool with _ | ⟨k, rest⟩ <;> rw [hp] at hd
    · cases hd
    · cases hd
      unfold phi
      rw [hp]
      simp only [List.map_cons, List.sum_cons, List.map_append,
        List.sum_append, List.map_nil, List.sum_nil]
      omega
  | dispFetch =>
    simp only [doChoice] at hd
    rcases hp : s.keyPool with _ | ⟨k, rest⟩ <;> rw [hp] at hd
    · cases hd
    · cases hd
      unfold phi
      rw [hp]
      simp only [List.length_cons, List.map_append, List.sum_append,
        List.map_cons, List.sum_cons, List.map_nil, List.sum_nil,
        fetchWPhi]
      omega
  | dispResp =>
    simp only [doChoice] at hd
    rcases hp : s.respChan with _ | ⟨tok, rest⟩ <;> rw [hp] at hd
    · cases hd
    · cases hd
      unfold phi
      rw [hp]
      simp only [List.length_cons]
      omega
  | wScan i =>
    simp only [doChoice] at hd
    rcases hsc : s.scanners[i]? with _ | w <;> rw [hsc] at hd
    · cases hd
    · cases hd
      have hsum := map_sum_set (scanWPhi t) s.scanners i w
      cases w with
      | listing k =>
        show phi t (scanStep t s i (.listing k)) < phi t s
        simp only [scanStep]
        rcases hl : listAt t k with _ | _ | cs
        · unfold phi
          have he := map_sum_eraseIdx (scanWPhi t) s.scanners i _ hsc
          have hv : scanWPhi t (.listing k) = 1 := by
            show 1 + (match listAt t k with
              | .lkeys cs => emitPhi t k (renderC cs)
              | _ => 0) = 1
            rw [hl]
            rfl
          rw [hv] at he
          simp only []
          omega
        · unfold phi
          have he := map_sum_eraseIdx (scanWPhi t) s.scanners i _ hsc
          have hv : scanWPhi t (.listing k) = 1 := by
            show 1 + (match listAt t k with
              | .lkeys cs => emitPhi t k (renderC cs)
              | _ => 0) = 1
            rw [hl]
            rfl
          rw [hv] at he
          simp only []
          omega
        · unfold phi
          have he := hsum (.emitting k (renderC cs)) hsc
          have hv : scanWPhi t (.listing k)
              = 1 + emitPhi t k (renderC cs) := by
            show 1 + (match listAt t k with
              | .lkeys cs => emitPhi t k (renderC cs)
              | _ => 0) = _
            rw [hl]
          rw [hv] at he
          have hv2 : scanWPhi t (.emitting k (renderC cs))
              = emitPhi t k (renderC cs) := rfl
          rw [hv2] at he
          simp only []
          omega
      | emitting k p =>
        cases p with
        | nil =>
          show phi t (scanStep t s i (.emitting k [])) < phi t s
          simp only [scanStep]
          unfold phi
          have he := map_sum_eraseIdx (scanWPhi t) s.scanners i _ hsc
          have hv : scanWPhi t (.emitting k []) = 1 := by
            show emitPhi t k [] = 1
            simp [emitPhi]
          rw [hv] at he
          simp only []
          omega
        | cons x r =>
          show phi t (scanStep t s i (.emitting k (x :: r))) < phi t s
          simp only [scanStep]
          unfold phi
          have he := hsum (.emitAdded k x r) hsc
          have hv : scanWPhi t (.emitting k (x :: r))
              = 2 + pendPhi t k x + emitPhi t k r := by
            show emitPhi t k (x :: r) = _
            exact emitPhi_cons t k x r
          have hv2 : scanWPhi t (.emitAdded k x r)
              = 1 + pendPhi t k x + emitPhi t k r := rfl
          rw [hv, hv2] at he
          simp only []
          omega
      | emitAdded k x r =>
        show phi t (scanStep t s i (.emitAdded k x r)) < phi t s
        simp only [scanStep]
        have he := hsum (.emitting k r) hsc
        have hv2 : scanWPhi t (.emitAdded k x r)
            = 1 + pendPhi t k x + emitPhi t k r := rfl
        have hv : scanWPhi t (.emitting k r) = emitPhi t k r := rfl
        rw [hv, hv2] at he
        rcases hx : hasSlashSuffix x with _ | _
        · simp only [hx, Bool.false_eq_true, if_false]
          unfold phi
          simp only [List.length_append, List.length_cons,
            List.length_nil]
          have hp6 : pendPhi t k x = 6 := by
            unfold pendPhi
            rw [hx]
            simp
          omega
        · simp only [hx, if_true]
          unfold phi
          simp only [List.map_append, List.sum_append, List.map_cons,
            List.sum_cons, List.map_nil, List.sum_nil]
          have hple := scanWPhi_listing_le t hw (k ++ [joinSeg x])
          have hpp : pendPhi t k x
              = 1 + optScanPhi t (k ++ [joinSeg x]) := by
            unfold pendPhi
            rw [hx]
            simp
          omega
  | wFetch i =>
    simp only [doChoice] at hd
    rcases hsc : s.fetchers[i]? with _ | w <;> rw [hsc] at hd
    · cases hd
    · cases hd
      have hsum := map_sum_set fetchWPhi s.fetchers i w
      cases w with
      | reading k =>
        show phi t (fetchStep cx t s i (.reading k)) < phi t s
        simp only [fetchStep]
        rcases hf : fetchTok cx (readAt t k) k with _ | tok
        · unfold phi
          have he := map_sum_eraseIdx fetchWPhi s.fetchers i _ hsc
          simp only [fetchWPhi] at he
          simp only []
          omega
        · unfold phi
          have he := hsum (.delivering tok) hsc
          simp only [fetchWPhi] at he
          simp only []
          omega
      | delivering tok =>
        show phi t (fetchStep cx t s i (.delivering tok)) < phi t s
        simp only [fetchStep]
        unfold phi
        have he := hsum (.deliverAdded tok) hsc
        simp only [fetchWPhi] at he
        simp only []
        omega
      | deliverAdded tok =>
        show phi t (fetchStep cx t s i (.deliverAdded tok)) < phi t s
        simp only [fetchStep]
        unfold phi
        have he := hsum .fexitW hsc
        simp only [fetchWPhi] at he
        simp only [List.length_append, List.length_cons, List.length_nil]
        omega
      | fexitW =>
        show phi t (fetchStep cx t s i .fexitW) < phi t s
        simp only [fetchStep]
        unfold phi
        have he := map_sum_eraseIdx fetchWPhi s.fetchers i _ hsc
        simp only [fetchWPhi] at he
        simp only []
        omega

/-- A non-terminal state always has an enabled step. -/
theorem step_progress (cx : Ctx) (t : VaultTree) {s : PState}
    (hi : Inv cx t s) (h0 : ¬ s.wg = 0) : ∃ s', Step cx t s s' := by
  have hu := wg_eq_units cx t hi
  rcases hp1 : s.scanPool with _ | ⟨k, r⟩
  · rcases hp2 : s.keyPool with _ | ⟨k, r⟩
    · rcases hp3 : s.respChan with _ | ⟨tok, r⟩
      · rcases hp4 : s.scanners with _ | ⟨w, r⟩
        · rcases hp5 : s.fetchers with _ | ⟨w, r⟩
          · exfalso
            apply h0
            rw [hu]
            unfold units
            rw [hp1, hp2, hp3, hp4, hp5]
            rfl
          · refine ⟨fetchStep cx t s 0 w, .wFetch 0, ?_⟩
            simp only [doChoice]
            rw [hp5]
            simp
        · refine ⟨scanStep t s 0 w, .wScan 0, ?_⟩
          simp only [doChoice]
          rw [hp4]
          simp
      · exact ⟨_, .dispResp, by simp only [doChoice]; rw [hp3]⟩
    · exact ⟨_, .dispFetch, by simp only [doChoice]; rw [hp2]⟩
  · exact ⟨_, .dispScan, by simp only [doChoice]; rw [hp1]⟩

/-- From any invariant state the machine reaches a terminal state. -/
theorem exists_terminal_from (cx : Ctx) (t : VaultTree)
    (hw : WFb t = true) :
    ∀ (n : Nat) (s : PState), phi t s ≤ n → Inv cx t s →
      ∃ s2, Relation.ReflTransGen (Step cx t) s s2 ∧ s2.wg = 0 := by
  intro n
  induction n with
  | zero =>
    intro s hphi hi
    by_cases h0 : s.wg = 0
    · exact ⟨s, Relation.ReflTransGen.refl, h0⟩
    · obtain ⟨s', hstep⟩ := step_progress cx t hi h0
      have := phi_step cx t hw hstep
      omega
  | succ n ih =>
    intro s hphi hi
    by_cases h0 : s.wg = 0
    · exact ⟨s, Relation.ReflTransGen.refl, h0⟩
    · obtain ⟨s', hstep⟩ := step_progress cx t hi h0
      have hdec := phi_step cx t hw hstep
      obtain ⟨s2, hr2, h02⟩ := ih s' (by omega)
        (inv_step cx t hw hstep hi)
      exact ⟨s2, Relation.ReflTransGen.head hstep hr2, h02⟩

/-- Every invocation terminates: some terminal state is reachable. -/
theorem exists_terminal (cx : Ctx) (t : VaultTree) (hw : WFb t = true) :
    ∃ s, Reach cx t s ∧ s.wg = 0 :=
  exists_terminal_from cx t hw (phi t initState) initState le_rfl
    (inv_init cx t)

/-! ### The final sort and the harvest contract -/

/-- tokenList.Less (src/token.go line 65): case-insensitive name order.
Go compares the lowered names byte-lexicographically; on the character
lists this is the lexicographic list order (UTF-8 byte order and
code-point order agree). -/
def tokenLess (a b : GoToken) : Prop :=
  (strLower a.Name).data < (strLower b.Name).data

instance : DecidableRel tokenLess := fun a b =>
  inferInstanceAs (Decidable ((strLower a.Name).data < (strLower b.Name).data))

/-- The non-strict companion of tokenLess. -/
def nameLe (a b : GoToken) : Prop :=
  (strLower a.Name).data ≤ (strLower b.Name).data

instance : DecidableRel nameLe := fun a b =>
  inferInstanceAs (Decidable ((strLower a.Name).data ≤ (strLower b.Name).data))

instance : IsTotal GoToken nameLe := ⟨fun a b => le_total _ _⟩

instance : IsTrans GoToken nameLe := ⟨fun _ _ _ => le_trans⟩

/-- The contract of Go's sort.Sort on tokenList (src/token.go line 173):
some permutation of the input that is ascending with respect to Less.  Go
documents sort.Sort as not guaranteed to be stable, and the repository
pins no Go version, so the modelled postcondition is exactly this
contract. -/
def sortRel (l out : List GoToken) : Prop :=
  out.Perm l ∧ List.Chain' (fun a b => ¬ tokenLess b a) out

/-- One complete invocation of the traversal with its sorted output. -/
def harvested (cx : Ctx) (t : VaultTree) (out : List GoToken) : Prop :=
  ∃ s, Reach cx t s ∧ s.wg = 0 ∧ sortRel s.resp out

/-- getSecretsFromVault (src/token.go lines 125-176): if the client
cannot be created the function returns (nil, error) before any work is
enqueued; otherwise it runs the traversal to completion and returns the
sorted collected tokens with a nil error.  none models the error return. -/
def harvestOutcome (clientOk : Bool) (cx : Ctx) (t : VaultTree)
    (r : Option (List GoToken)) : Prop :=
  if clientOk then ∃ out, harvested cx t out ∧ r = some out else r = none

theorem nonDesc_iff_nameLe (a b : GoToken) :
    (¬ tokenLess b a) ↔ nameLe a b := by
  unfold tokenLess nameLe
  exact not_lt

/-- Some sorted output always exists (Go's sort.Sort always returns). -/
theorem sortRel_exists (l : List GoToken) :
    sortRel l (List.insertionSort nameLe l) := by
  constructor
  · exact List.perm_insertionSort nameLe l
  · have hs : List.Sorted nameLe (List.insertionSort nameLe l) :=
      List.sorted_insertionSort nameLe l
    exact List.Chain'.imp (fun a b h => (nonDesc_iff_nameLe a b).mpr h)
      (List.Pairwise.chain' hs)

/-- At a terminal state the collected tokens are exactly the tokens of
the discovered leaves. -/
theorem terminal_resp (cx : Ctx) (t : VaultTree) (hw : WFb t = true)
    {s : PState} (hr : Reach cx t s) (h0 : s.wg = 0) :
    s.resp.Perm (tokYieldL cx t []) := by
  have hi := inv_reach cx t hw hr
  obtain ⟨e1, e2, e3, e4, e5⟩ := terminal_drained cx t hi h0
  obtain ⟨_, _, _, _, _, h6⟩ := hi
  rw [e1, e2, e3, e4, e5] at h6
  simp only [List.map_nil, List.sum_nil, add_zero] at h6
  apply Multiset.coe_eq_coe.mp
  rw [show optTokYield cx t [] = (tokYieldL cx t [] : Multiset GoToken) by
    unfold optTokYield; rw [subAt_nil]] at h6
  simpa using h6

mutual
/-- Token count below a node = number of discovered leaves below it whose
fetch yields a record. -/
theorem tokYield_filter (cx : Ctx) (t : VaultTree) (hw : WFb t = true) :
    ∀ (u : VaultTree) (k : Key), subAt t k = some u →
      (tokYieldL cx u k).length
        = ((leafYieldL u k).filter
            (fun q => (fetchTok cx (readAt t q) q).isSome)).length
  | .leaf r, k, hs => by simp [tokYieldL, leafYieldL]
  | .dirErr, k, hs => by simp [tokYieldL, leafYieldL]
  | .dirNil, k, hs => by simp [tokYieldL, leafYieldL]
  | .dir cs, k, hs => by
    rw [show tokYieldL cx (.dir cs) k = tokYieldLC cx cs k by
      simp [tokYieldL]]
    rw [show leafYieldL (.dir cs) k = leafYieldLC cs k by
      simp [leafYieldL]]
    exact tokYieldC_filter cx t hw cs k
      (fun n u' hm => (child_resolve hw hs n u' hm).1)

theorem tokYieldC_filter (cx : Ctx) (t : VaultTree) (hw : WFb t = true) :
    ∀ (cs : Children) (k : Key),
      (∀ n u', memC n u' cs → subAt t (k ++ [n]) = some u') →
      (tokYieldLC cx cs k).length
        = ((leafYieldLC cs k).filter
            (fun q => (fetchTok cx (readAt t q) q).isSome)).length
  | .nil, k, h => by simp [tokYieldLC, leafYieldLC]
  | .cons n u rest, k, h => by
    have hs := h n u (Or.inl ⟨rfl, rfl⟩)
    have hrest := tokYieldC_filter cx t hw rest k
      (fun n' u' hm => h n' u' (Or.inr hm))
    rw [show tokYieldLC cx (.cons n u rest) k
        = (match u with
           | .leaf r => (fetchTok cx r (k ++ [n])).toList
           | _ => tokYieldL cx u (k ++ [n])) ++ tokYieldLC cx rest k by
      cases u <;> simp [tokYieldLC]]
    rw [show leafYieldLC (.cons n u rest) k
        = (if u.isLeaf then [k ++ [n]] else leafYieldL u (k ++ [n]))
          ++ leafYieldLC rest k by simp [leafYieldLC]]
    rw [List.filter_append, List.length_append, List.length_append,
      hrest]
    congr 1
    cases u with
    | leaf r =>
      have hread : readAt t (k ++ [n]) = r := by
        unfold readAt
        rw [hs]
      simp only [VaultTree.isLeaf, if_true, List.filter_cons,
        List.filter_nil, hread]
      rcases hf : fetchTok cx r (k ++ [n]) with _ | tok <;>
        simp [hf, Option.toList]
    | dirErr =>
      simp only [VaultTree.isLeaf, Bool.false_eq_true, if_false]
      exact tokYield_filter cx t hw .dirErr (k ++ [n]) hs
    | dirNil =>
      simp only [VaultTree.isLeaf, Bool.false_eq_true, if_false]
      exact tokYield_filter cx t hw .dirNil (k ++ [n]) hs
    | dir cs2 =>
      simp only [VaultTree.isLeaf, Bool.false_eq_true, if_false]
      exact tokYield_filter cx t hw (.dir cs2) (k ++ [n]) hs
end

/-- Claim C3: the harvest fails exactly when the store client cannot be
established; it always returns, and every per-key listing error, read
error, empty payload, field-parse error or code-generation failure is
contained in its worker: the result has exactly one record per discovered
leaf whose fetch produced a record, so a single failing leaf among N
yields N-1 records and no error. -/
theorem session_error_only (cx : Ctx) (t : VaultTree) (hw : WFb t = true)
    (clientOk : Bool) :
    (∃ r, harvestOutcome clientOk cx t r)
    ∧ (∀ r, harvestOutcome clientOk cx t r →
        ((r = none) ↔ clientOk = false))
    ∧ (∀ out, harvestOutcome clientOk cx t (some out) →
        out.length = (tokYieldL cx t []).length)
    ∧ (tokYieldL cx t []).length
        = ((leafYieldL t []).filter
            (fun q => (fetchTok cx (readAt t q) q).isSome)).length := by
  refine ⟨?_, ?_, ?_, ?_⟩
  · cases clientOk with
    | false => exact ⟨none, by simp [harvestOutcome]⟩
    | true =>
      obtain ⟨s, hr, h0⟩ := exists_terminal cx t hw
      exact ⟨some (List.insertionSort nameLe s.resp),
        by
          simp only [harvestOutcome, if_true]
          exact ⟨_, ⟨s, hr, h0, sortRel_exists s.resp⟩, rfl⟩⟩
  · intro r hr
    cases clientOk with
    | false =>
      simp only [harvestOutcome, Bool.false_eq_true, if_false] at hr
      simp [hr]
    | true =>
      simp only [harvestOutcome, if_true] at hr
      obtain ⟨out, _, rfl⟩ := hr
      simp
  · intro out hr
    cases clientOk with
    | false =>
      simp only [harvestOutcome, Bool.false_eq_true, if_false] at hr
      cases hr
    | true =>
      simp only [harvestOutcome, if_true] at hr
      obtain ⟨out2, ⟨s, hreach, h0, hsort⟩, heq⟩ := hr
      injection heq with heq
      subst heq
      have h1 := terminal_resp cx t hw hreach h0
      have h2 := hsort.1
      rw [h2.length_eq, h1.length_eq]
  · exact tokYield_filter cx t hw t [] (subAt_nil t)

/-- A store with two leaves where the read of b fails. -/
def failTree : VaultTree :=
  .dir (.cons "a" (.leaf (.rok [("secret", "ab")]))
    (.cons "b" (.leaf .rerr) .nil))

/-- Closed witness for session_error_only: against failTree (two leaves,
one failing read) the harvest returns a result of exactly one record, one
fewer than the two discovered leaves, and no error. -/
theorem session_error_only_witness :
    (∃ r, harvestOutcome true cxW failTree r)
    ∧ (tokYieldL cxW failTree []).length
        = ((leafYieldL failTree []).filter
            (fun q => (fetchTok cxW (readAt failTree q) q).isSome)).length
    ∧ (leafYieldL failTree []).length = 2
    ∧ (tokYieldL cxW failTree []).length = 1 := by
  have h := session_error_only cxW failTree (by decide) true
  exact ⟨h.1, h.2.2.2, by decide, by decide⟩

/-! ### Claim C4: what finalisation does -/

def tokCxA : GoToken :=
  { Code := "1", Icon := "key", Name := "A", Secret := "s1", Digits := 0,
    Period := 0 }

def tokCxB : GoToken :=
  { Code := "2", Icon := "key", Name := "a", Secret := "s2", Digits := 0,
    Period := 0 }

/-- Claim C4, counterexample: for the collected list [A-token, a-token],
whose names differ only by case, the reversed order also satisfies the
postcondition of sort.Sort (sorted by case-insensitive name) but is not
the stable sort of the list, so the returned ResultSet is not always the
stable sort: Go's sort.Sort guarantees no stability. -/
theorem finalize_stable_cx :
    sortRel [tokCxA, tokCxB] [tokCxB, tokCxA]
    ∧ [tokCxB, tokCxA] ≠ List.insertionSort nameLe [tokCxA, tokCxB] := by
  refine ⟨⟨by decide, ?_⟩, by decide⟩
  exact List.chain'_cons.mpr ⟨by decide, List.chain'_singleton _⟩

/-- Claim C4 as amended: the returned ResultSet is an ascending sort of
the collected record list by case-insensitive display name — a
permutation of it, so finalisation changes no record and adds or drops
none, and its members are exactly the delivered tokens; but it is not
necessarily the stable such permutation, since sort.Sort is not
guaranteed stable. -/
theorem finalize_sorts (cx : Ctx) (t : VaultTree) (hw : WFb t = true)
    {s : PState} {out : List GoToken} (hr : Reach cx t s) (h0 : s.wg = 0)
    (hs : sortRel s.resp out) :
    out.Perm s.resp
    ∧ List.Chain' nameLe out
    ∧ out.Perm (tokYieldL cx t []) := by
  refine ⟨hs.1, ?_, ?_⟩
  · exact List.Chain'.imp (fun a b h => (nonDesc_iff_nameLe a b).mp h) hs.2
  · exact hs.1.trans (terminal_resp cx t hw hr h0)

def tokWa : GoToken :=
  { Code := "111111", Icon := "key", Name := "a", Secret := "ab",
    Digits := 0, Period := 0 }

def tokWb : GoToken :=
  { Code := "111111", Icon := "key", Name := "b", Secret := "cd",
    Digits := 0, Period := 0 }

/-- Closed witness for finalize_sorts on a concrete terminal run. -/
theorem finalize_sorts_witness :
    endW1.resp.Perm endW1.resp
    ∧ List.Chain' nameLe endW1.resp
    ∧ endW1.resp.Perm (tokYieldL cxW wTree []) := by
  have hr : Reach cxW wTree endW1 :=
    applySched_sound cxW wTree schedW1 initState endW1 (by decide)
  refine finalize_sorts cxW wTree (by decide) hr (by decide)
    ⟨List.Perm.refl _, ?_⟩
  rw [show endW1.resp = [tokWa, tokWb] from by decide]
  exact List.chain'_cons.mpr ⟨by decide, List.chain'_singleton _⟩

/-! ### Claim C9: determinism across runs -/

/-- Two sorted permutations of each other with pairwise-distinct
case-insensitive names are equal. -/
theorem sorted_perm_unique :
    ∀ (l1 l2 : List GoToken), l1.Perm l2 →
      List.Chain' nameLe l1 → List.Chain' nameLe l2 →
      (l1.map (fun tk => strLower tk.Name)).Nodup → l1 = l2 := by
  intro l1
  induction l1 with
  | nil =>
    intro l2 hp _ _ _
    exact (List.Perm.eq_nil hp.symm).symm
  | cons a l1' ih =>
    intro l2 hp hc1 hc2 hnd
    cases l2 with
    | nil => exact absurd (List.Perm.eq_nil hp) (by simp)
    | cons b l2' =>
      have hab : a = b := by
        by_contra hne
        have ha2 : a ∈ l2' := by
          have hm := hp.mem_iff.mp (List.mem_cons_self a l1')
          rcases List.mem_cons.mp hm with h | h
          · exact absurd h hne
          · exact h
        have hb1 : b ∈ l1' := by
          have hm := hp.symm.mem_iff.mp (List.mem_cons_self b l2')
          rcases List.mem_cons.mp hm with h | h
          · exact absurd h.symm hne
          · exact h
        have hpw1 : List.Pairwise nameLe (a :: l1') :=
          List.chain'_iff_pairwise.mp hc1
        have hpw2 : List.Pairwise nameLe (b :: l2') :=
          List.chain'_iff_pairwise.mp hc2
        have hab1 : nameLe a b := (List.pairwise_cons.mp hpw1).1 b hb1
        have hab2 : nameLe b a := (List.pairwise_cons.mp hpw2).1 a ha2
        have heq : strLower a.Name = strLower b.Name := by
          apply String.ext
          exact le_antisymm hab1 hab2
        have hmem : strLower b.Name
            ∈ l1'.map (fun tk => strLower tk.Name) :=
          List.mem_map_of_mem _ hb1
        rw [← heq] at hmem
        rw [List.map_cons, List.nodup_cons] at hnd
        exact hnd.1 hmem
      subst hab
      have hp' := hp.cons_inv
      rw [List.map_cons, List.nodup_cons] at hnd
      rw [ih l2' hp' hc1.tail hc2.tail hnd.2]

/-- Claim C9 as amended: any two complete harvests of an unchanged
namespace collect the same members (the outputs are permutations of each
other, whatever order the traversals visited keys in); and whenever no
two delivered records tie on case-insensitive display name, the outputs
are identical including order.  With ties, the order between the tied
records is not determined (sort.Sort is unstable and delivery order is
scheduling-dependent). -/
theorem harvest_deterministic (cx : Ctx) (t : VaultTree)
    (hw : WFb t = true) :
    (∀ out1 out2, harvested cx t out1 → harvested cx t out2 →
      out1.Perm out2)
    ∧ (((tokYieldL cx t []).map (fun tk => strLower tk.Name)).Nodup →
        ∀ out1 out2, harvested cx t out1 → harvested cx t out2 →
          out1 = out2) := by
  have hperm : ∀ out, harvested cx t out → out.Perm (tokYieldL cx t []) := by
    rintro out ⟨s, hr, h0, hs⟩
    exact hs.1.trans (terminal_resp cx t hw hr h0)
  constructor
  · intro out1 out2 h1 h2
    exact (hperm out1 h1).trans (hperm out2 h2).symm
  · intro hnd out1 out2 h1 h2
    obtain ⟨s1, hr1, h01, hs1⟩ := h1
    obtain ⟨s2, hr2, h02, hs2⟩ := h2
    apply sorted_perm_unique
    · exact (hperm out1 ⟨s1, hr1, h01, hs1⟩).trans
        (hperm out2 ⟨s2, hr2, h02, hs2⟩).symm
    · exact List.Chain'.imp (fun a b h => (nonDesc_iff_nameLe a b).mp h)
        hs1.2
    · exact List.Chain'.imp (fun a b h => (nonDesc_iff_nameLe a b).mp h)
        hs2.2
    · exact (List.Perm.nodup_iff
        ((hperm out1 ⟨s1, hr1, h01, hs1⟩).map _)).mpr hnd

/-- A store with two leaves whose records tie on case-insensitive name:
the name fields are X and x. -/
def tieTree : VaultTree :=
  .dir (.cons "a" (.leaf (.rok [("secret", "ab"), ("name", "X")]))
    (.cons "b" (.leaf (.rok [("secret", "cd"), ("name", "x")])) .nil))

/-- Fetch a first, then b. -/
def schedT1 : List Choice :=
  [.dispScan, .wScan 0, .wScan 0, .wScan 0, .wScan 0, .wScan 0, .wScan 0,
   .dispFetch, .dispFetch,
   .wFetch 0, .wFetch 0, .wFetch 0, .wFetch 0,
   .wFetch 0, .wFetch 0, .wFetch 0, .wFetch 0,
   .dispResp, .dispResp]

/-- Fetch b first, then a. -/
def schedT2 : List Choice :=
  [.dispScan, .wScan 0, .wScan 0, .wScan 0, .wScan 0, .wScan 0, .wScan 0,
   .dispFetch, .dispFetch,
   .wFetch 1, .wFetch 1, .wFetch 1, .wFetch 1,
   .wFetch 0, .wFetch 0, .wFetch 0, .wFetch 0,
   .dispResp, .dispResp]

def endT1 : PState :=
  (applySched cxW tieTree schedT1 initState).getD initState

def endT2 : PState :=
  (applySched cxW tieTree schedT2 initState).getD initState

def tokTX : GoToken :=
  { Code := "111111", Icon := "key", Name := "X", Secret := "ab",
    Digits := 0, Period := 0 }

def tokTx : GoToken :=
  { Code := "111111", Icon := "key", Name := "x", Secret := "cd",
    Digits := 0, Period := 0 }

theorem endT1_resp : endT1.resp = [tokTX, tokTx] := by decide

theorem endT2_resp : endT2.resp = [tokTx, tokTX] := by decide

theorem sortedT1 : List.Chain' (fun a b => ¬ tokenLess b a) endT1.resp := by
  rw [endT1_resp]
  exact List.chain'_cons.mpr ⟨by decide, List.chain'_singleton _⟩

theorem sortedT2 : List.Chain' (fun a b => ¬ tokenLess b a) endT2.resp := by
  rw [endT2_resp]
  exact List.chain'_cons.mpr ⟨by decide, List.chain'_singleton _⟩

/-- Claim C9, counterexample: two complete runs of the harvest against
the unchanged tieTree namespace, differing only in which leaf was fetched
first, return ResultSets with the same members but different order: the
two records tie on case-insensitive name, both orders are sorted, and the
collected order follows the scheduling. -/
theorem harvest_deterministic_cx :
    harvested cxW tieTree endT1.resp
    ∧ harvested cxW tieTree endT2.resp
    ∧ endT1.resp ≠ endT2.resp := by
  refine ⟨⟨endT1, ?_, by decide, ⟨List.Perm.refl _, sortedT1⟩⟩,
    ⟨endT2, ?_, by decide, ⟨List.Perm.refl _, sortedT2⟩⟩, by decide⟩
  · exact applySched_sound cxW tieTree schedT1 initState endT1 (by decide)
  · exact applySched_sound cxW tieTree schedT2 initState endT2 (by decide)

/-- Closed witness for harvest_deterministic: the two runs above have
permutation-equal outputs. -/
theorem harvest_deterministic_witness :
    endT1.resp.Perm endT2.resp := by
  have h := (harvest_deterministic cxW tieTree (by decide)).1
  apply h
  · exact ⟨endT1,
      applySched_sound cxW tieTree schedT1 initState endT1 (by decide),
      by decide, List.Perm.refl _, sortedT1⟩
  · exact ⟨endT2,
      applySched_sound cxW tieTree schedT2 initState endT2 (by decide),
      by decide, List.Perm.refl _, sortedT2⟩

/-- Closed witness for counter_ledger at the initial state: one Add (the
caller's wg.Add(1) for the root scan request), no Dones. -/
theorem counter_ledger_witness :
    initState.adds = initState.spawnedScans.length
      + initState.spawnedFetches.length + initState.resp.length
      + (initState.scanPool.length + initState.keyPool.length
        + initState.respChan.length
        + (initState.scanners.map scanWFlag).sum
        + (initState.fetchers.map fetchWFlag).sum)
    ∧ initState.dones + initState.scanners.length
        + initState.fetchers.length
      = initState.spawnedScans.length + initState.spawnedFetches.length
        + initState.resp.length :=
  ⟨(counter_ledger cxW .dirNil (by decide) Relation.ReflTransGen.refl).1,
   (counter_ledger cxW .dirNil (by decide) Relation.ReflTransGen.refl).2.1⟩

end VaultOtp
